import Mathlib

/-!
# Verification of the ucc optimization passes

Shallow embedding of the three circuit-rewriting passes of this repository
(`seqht_pass.py`, `qhrf_pass.py`, `ionq_pass.py`) and proofs of the frozen
claims about them.

Angles are modelled as exact rationals.  The Python source computes with
IEEE-754 doubles; every angle constant appearing in the claims (`np.pi` and
its halves/quarters, decimal literals) is a dyadic rational, so it embeds
exactly.  Float rounding of sums is not modelled: arithmetic is exact, which
is the standard real-number reading of the spec's "real numbers (radians)".
Out-of-range indexing (a malformed `Operation`, spec section 7) is not
modelled; list reads use defaults where Python would raise.
-/

/-- The exact rational value of the IEEE-754 double `np.pi`
(3.141592653589793115997963468544185161590576171875). -/
def npPi : ℚ := 884279719003555 / 281474976710656

/-- Python's `abs` on rationals. -/
def ratAbs (x : ℚ) : ℚ := if x < 0 then -x else x

/-- Circuit IR operation (spec section 3): gate name, ordered real parameters,
ordered qubit indices, ordered classical-bit indices. -/
structure Op where
  name : String
  params : List ℚ
  qubits : List ℕ
  clbits : List ℕ
deriving DecidableEq, Repr

/-- Default operation used for out-of-range list reads (never hit on the
well-formed inputs the claims quantify over). -/
def dfltOp : Op := ⟨"", [], [], []⟩

/-- Circuit IR (spec section 3): qubit/clbit counts plus the ordered
operation list. -/
structure Circuit where
  num_qubits : ℕ
  num_clbits : ℕ
  ops : List Op
deriving DecidableEq, Repr

/-! ## Sequency Truncator (`seqht_pass.py`, class `SeqHTPass`) -/

/-- The recognized single-qubit gate-name set of
`SeqHTPass._extract_single_qubit_operations`. -/
def seqhtNames : List String := ["rx", "ry", "rz", "u3", "h", "x", "y", "z", "s", "t"]

/-- `SeqHTPass._extract_single_qubit_operations`: the operations acting on
exactly the single qubit `q`, with no classical bits, whose name is in the
recognized set, in program order. -/
def extractOps (ops : List Op) (q : ℕ) : List Op :=
  ops.filter (fun op => op.qubits == [q] && op.clbits == ([] : List ℕ)
    && seqhtNames.contains op.name)

/-- Per-operation contribution to the order-0 sequency coefficients
(`SeqHTPass._compute_sequency_coefficients` loop body): an (x, y, z)
triple of accumulated angles.  Parameterless gates contribute zero. -/
def opCoeffs (op : Op) : ℚ × ℚ × ℚ :=
  match op.params with
  | [] => (0, 0, 0)
  | p :: rest =>
    if op.name = "rx" then (p, 0, 0)
    else if op.name = "ry" then (0, p, 0)
    else if op.name = "rz" then (0, 0, p)
    else if op.name = "u3" then
      match rest with
      | p1 :: p2 :: _ => (0, p, p1 + p2)
      | _ => (0, 0, 0)
    else (0, 0, 0)

/-- `SeqHTPass._compute_sequency_coefficients`: sum of the per-operation
contributions.  The source allocates a `(max_order+1) x 3` array but writes
and reads only row 0 (the DC components); rows beyond 0 stay zero, so they
are not represented. -/
def computeSequencyCoefficients (ops : List Op) : ℚ × ℚ × ℚ :=
  ops.foldl (fun acc op =>
    let c := opCoeffs op
    (acc.1 + c.1, acc.2.1 + c.2.1, acc.2.2 + c.2.2)) (0, 0, 0)

/-- `SeqHTPass._truncate_sequency_hierarchy` on a single coefficient: zero it
when its magnitude is strictly below the threshold. -/
def truncateCoeff (t c : ℚ) : ℚ :=
  if ratAbs c < t then 0 else c

/-- `SeqHTPass._truncate_sequency_hierarchy` applied to the order-0 row. -/
def truncateTriple (t : ℚ) (k : ℚ × ℚ × ℚ) : ℚ × ℚ × ℚ :=
  (truncateCoeff t k.1, truncateCoeff t k.2.1, truncateCoeff t k.2.2)

/-- `SeqHTPass._reconstruct_from_sequency`: at most one rotation per axis, in
fixed X, Y, Z order, kept only when the coefficient magnitude strictly
exceeds the threshold.  Result pairs are (gate name, angle). -/
def reconstructFromSequency (t : ℚ) (k : ℚ × ℚ × ℚ) : List (String × ℚ) :=
  (if t < ratAbs k.1 then [("rx", k.1)] else [])
    ++ (if t < ratAbs k.2.1 then [("ry", k.2.1)] else [])
    ++ (if t < ratAbs k.2.2 then [("rz", k.2.2)] else [])

/-- An optimized replacement gate materialized on qubit `q`
(`new_circuit.append(opt_op['gate'], [qubit_idx], [])`). -/
def mkRotOp (q : ℕ) (p : String × ℚ) : Op :=
  ⟨p.1, [p.2], [q], []⟩

/-- The `should_replace` condition of `SeqHTPass._replace_operations`: the
walk is at a single-qubit operation on `q` whose name matches the next
unconsumed extracted operation. -/
def shouldReplace (q : ℕ) (orig : List Op) (i : ℕ) (op : Op) : Bool :=
  !orig.isEmpty && decide (i < orig.length) && op.qubits == [q]
    && op.name == (orig.getD i dfltOp).name

/-- Walk of `SeqHTPass._replace_operations`: `i` counts matched original
operations; the first `opt.length` matches are replaced by the optimized
gates, later matches (and all non-matching operations) are kept. -/
def replaceOpsAux (q : ℕ) (orig : List Op) (opt : List (String × ℚ)) :
    ℕ → List Op → List Op
  | _, [] => []
  | i, op :: rest =>
    if shouldReplace q orig i op then
      if i < opt.length then
        mkRotOp q (opt.getD i ("", 0)) :: replaceOpsAux q orig opt (i + 1) rest
      else
        op :: replaceOpsAux q orig opt (i + 1) rest
    else
      op :: replaceOpsAux q orig opt i rest

/-- `SeqHTPass._replace_operations` (operation-list level). -/
def replaceOps (q : ℕ) (orig : List Op) (opt : List (String × ℚ))
    (ops : List Op) : List Op :=
  replaceOpsAux q orig opt 0 ops

/-- One qubit's step of `SeqHTPass._apply_seqht_optimization`: extraction is
from the ORIGINAL operation list `ops`, replacement is applied to the
accumulator `acc` (exactly as in the source, where `_extract...` reads
`circuit` while `_replace_operations` threads `optimized_circuit`). -/
def seqhtQubitStep (t : ℚ) (ops : List Op) (acc : List Op) (q : ℕ) : List Op :=
  let orig := extractOps ops q
  if 1 < orig.length then
    replaceOps q orig
      (reconstructFromSequency t (truncateTriple t (computeSequencyCoefficients orig)))
      acc
  else acc

/-- `SeqHTPass._apply_seqht_optimization` on the operation list. -/
def applySeqhtOps (t : ℚ) (nq : ℕ) (ops : List Op) : List Op :=
  (List.range nq).foldl (seqhtQubitStep t ops) ops

/-- The Sequency Truncator pass (`SeqHTPass`, threshold `t`); qubit and
clbit counts are those of the rebuilt circuit
(`QuantumCircuit(circuit.num_qubits, circuit.num_clbits)`). -/
def applySeqht (t : ℚ) (c : Circuit) : Circuit :=
  ⟨c.num_qubits, c.num_clbits, applySeqhtOps t c.num_qubits c.ops⟩

/-! ## Gate Set Translator (`ionq_pass.py`, class `IonQOptimizationPass`)

`use_tket` always falls back to `_apply_qiskit_optimization` (the tket path
is an unimplemented pass-through to it), so the Qiskit path is the pass. -/

/-- Strip the classical bits of an operation, as every re-append in the
IonQ pass does (`optimized_circuit.append(instruction, qubits, [])`). -/
def stripClbits (op : Op) : Op :=
  { op with clbits := [] }

/-- The per-gate rewrite of `IonQOptimizationPass._optimize_gate_set`.
The two final source branches (already-native names and the catch-all)
both re-append the instruction with its qubits and no clbits; they are
rendered as the single final case. -/
def translateOp (op : Op) : List Op :=
  if op.name = "h" then
    [⟨"ry", [npPi / 2], [op.qubits.getD 0 0], []⟩,
     ⟨"rx", [npPi], [op.qubits.getD 0 0], []⟩]
  else if op.name = "x" then
    [⟨"rx", [npPi], [op.qubits.getD 0 0], []⟩]
  else if op.name = "y" then
    [⟨"ry", [npPi], [op.qubits.getD 0 0], []⟩]
  else if op.name = "z" then
    [⟨"rz", [npPi], [op.qubits.getD 0 0], []⟩]
  else if op.name = "cx" then
    [⟨"rx", [-(npPi / 2)], [op.qubits.getD 0 0], []⟩,
     ⟨"rx", [-(npPi / 2)], [op.qubits.getD 1 0], []⟩,
     ⟨"rxx", [npPi / 4], [op.qubits.getD 0 0, op.qubits.getD 1 0], []⟩]
  else
    [stripClbits op]

/-- `IonQOptimizationPass._optimize_gate_set`: per-operation rewrite into the
IonQ native set; the rebuilt circuit is `QuantumCircuit(circuit.num_qubits)`
(no classical bits). -/
def optimizeGateSet (c : Circuit) : Circuit :=
  ⟨c.num_qubits, 0, (c.ops.map translateOp).flatten⟩

/-- The collection condition of `IonQOptimizationPass._optimize_rotations`:
a single-qubit rx/ry/rz rotation. -/
def isRotOp (op : Op) : Bool :=
  decide (op.qubits.length = 1)
    && (op.name == "rx" || op.name == "ry" || op.name == "rz")

/-- The per-qubit rotation accumulators of `_optimize_rotations`
(`rotation_sequences`), with keys in insertion order as in a Python
`defaultdict`. -/
abbrev Seqs := List (ℕ × List (String × ℚ))

/-- Record a rotation `(name, angle)` for qubit `q`: append to `q`'s entry
if present, else create the entry at the end of the key order. -/
def addRotation (seqs : Seqs) (q : ℕ) (r : String × ℚ) : Seqs :=
  match seqs with
  | [] => [(q, [r])]
  | (k, rs) :: rest =>
    if k = q then (k, rs ++ [r]) :: rest else (k, rs) :: addRotation rest q r

/-- The `1e-10` angle cutoff of `_optimize_rotation_sequence`. -/
def ionqEps : ℚ := 1 / 10000000000

/-- Per-axis angle sum of `_optimize_rotation_sequence`. -/
def sumAxis (n : String) (rs : List (String × ℚ)) : ℚ :=
  rs.foldl (fun s p => if p.1 = n then s + p.2 else s) 0

/-- `IonQOptimizationPass._optimize_rotation_sequence`: fuse a qubit's pending
rotations into at most one rotation per axis, in fixed X, Y, Z order,
dropping axes whose summed angle is at most `1e-10` in magnitude. -/
def optimizeRotationSequence (rs : List (String × ℚ)) : List (String × ℚ) :=
  (if ionqEps < ratAbs (sumAxis "rx" rs) then [("rx", sumAxis "rx" rs)] else [])
    ++ (if ionqEps < ratAbs (sumAxis "ry" rs) then [("ry", sumAxis "ry" rs)] else [])
    ++ (if ionqEps < ratAbs (sumAxis "rz" rs) then [("rz", sumAxis "rz" rs)] else [])

/-- Emission of one fused pair on qubit `q` (the `if gate_name == 'rx':
optimized_circuit.rx(angle, q_idx)` elif-chain; names other than rx/ry/rz
emit nothing, though the fuser never produces them). -/
def emitPair (q : ℕ) (p : String × ℚ) : List Op :=
  if p.1 = "rx" ∨ p.1 = "ry" ∨ p.1 = "rz" then [⟨p.1, [p.2], [q], []⟩] else []

/-- Flush one qubit's accumulator (`if rotation_sequences[q_idx]:` followed by
the emission loop over `_optimize_rotation_sequence`). -/
def emitFor (e : ℕ × List (String × ℚ)) : List Op :=
  if e.2.isEmpty then []
  else ((optimizeRotationSequence e.2).map (emitPair e.1)).flatten

/-- Flush every qubit's accumulator in key insertion order. -/
def flushSeqs (seqs : Seqs) : List Op :=
  (seqs.map emitFor).flatten

/-- One step of the `_optimize_rotations` scan: collect a single-qubit
rotation, or flush all accumulators and append the (clbit-stripped)
non-rotation operation. -/
def rotStep (st : List Op × Seqs) (op : Op) : List Op × Seqs :=
  if isRotOp op then
    (st.1, addRotation st.2 (op.qubits.getD 0 0) (op.name, op.params.getD 0 0))
  else
    (st.1 ++ flushSeqs st.2 ++ [stripClbits op], [])

/-- `IonQOptimizationPass._optimize_rotations` on the operation list: scan,
then flush the remaining accumulators. -/
def optimizeRotationsOps (ops : List Op) : List Op :=
  let st := ops.foldl rotStep ([], [])
  st.1 ++ flushSeqs st.2

/-- `IonQOptimizationPass._optimize_rotations`: the rebuilt circuit is
`QuantumCircuit(circuit.num_qubits)` (no classical bits). -/
def optimizeRotations (c : Circuit) : Circuit :=
  ⟨c.num_qubits, 0, optimizeRotationsOps c.ops⟩

/-- `IonQOptimizationPass._optimize_connectivity`: the identity. -/
def optimizeConnectivity (c : Circuit) : Circuit := c

/-- `IonQOptimizationPass._apply_qiskit_optimization`: gate-set rewrite, then
rotation fusion, then the (identity) connectivity stage. -/
def applyQiskitOptimization (c : Circuit) : Circuit :=
  optimizeConnectivity (optimizeRotations (optimizeGateSet c))

/-! ## Hierarchical Redundancy Filter (`qhrf_pass.py`, class `QHRFPass`) -/

/-- The greedy layer scan of `QHRFPass._build_hierarchy`: close the current
layer whenever an operation touches an already-active qubit.  The source's
per-operation `index` bookkeeping is not represented (it only serves to make
layer dictionaries distinct, which positional indexing provides). -/
def buildLayersAux : List Op → List (List Op) → List Op → List ℕ → List (List Op)
  | [], acc, cur, _ => if cur.isEmpty then acc else acc ++ [cur]
  | op :: rest, acc, cur, active =>
    if op.qubits.any (fun q => active.contains q) then
      buildLayersAux rest (if cur.isEmpty then acc else acc ++ [cur]) [op] op.qubits
    else
      buildLayersAux rest acc (cur ++ [op]) (active ++ op.qubits)

/-- `QHRFPass._build_hierarchy`'s layer list. -/
def buildLayers (ops : List Op) : List (List Op) :=
  buildLayersAux ops [] [] []

/-- Set-equality of qubit index lists (`set(op['qubits']) == set(qubits)`). -/
def sameQubitSet (a b : List ℕ) : Bool :=
  a.all (fun x => b.contains x) && b.all (fun x => a.contains x)

/-- The base contribution score of
`QHRFPass._calculate_operation_contribution`. -/
def baseContribution (op : Op) : ℚ :=
  if op.name = "h" ∨ op.name = "x" ∨ op.name = "y" ∨ op.name = "z" then 1
  else if op.name = "rx" ∨ op.name = "ry" ∨ op.name = "rz" then
    match op.params with
    | p :: _ => min (ratAbs p / npPi) 1
    | [] => 1 / 2
  else if op.name = "cx" ∨ op.name = "cz" ∨ op.name = "swap" then 3 / 2
  else 4 / 5

/-- Number of OTHER operations of the layer with the same qubit set and gate
name (`similar_ops`; Python's dict inequality distinguishes layer entries
positionally via their `index` field, hence the `j ≠ i` check). -/
def similarCount (i : ℕ) (layer : List Op) : ℕ :=
  ((List.range layer.length).filter (fun j =>
    decide (j ≠ i)
      && sameQubitSet (layer.getD j dfltOp).qubits (layer.getD i dfltOp).qubits
      && (layer.getD j dfltOp).name == (layer.getD i dfltOp).name)).length

/-- `QHRFPass._calculate_operation_contribution` for the operation at
position `i` of the layer. -/
def contribution (i : ℕ) (layer : List Op) : ℚ :=
  let base := baseContribution (layer.getD i dfltOp)
  let s := similarCount i layer
  if 0 < s then base * (1 / (s + 1)) else base

/-- Does the qubit-set `g` meet the group `eg` (`group & existing_group`)? -/
def overlapsGroup (g eg : List ℕ) : Bool :=
  eg.any (fun x => g.contains x)

/-- Insert one qubit group into the merged-group list, exactly as the merge
loop of `QHRFPass._breaks_connectivity` does: the first overlapping group
absorbs the new group and every later overlapping group (which are removed);
with no overlap the group is appended. -/
def groupInsert (g : List ℕ) : List (List ℕ) → List (List ℕ)
  | [] => [g]
  | eg :: rest =>
    if overlapsGroup g eg then
      (eg ++ g ++ (rest.filter (fun e => overlapsGroup g e)).flatten)
        :: rest.filter (fun e => !overlapsGroup g e)
    else
      eg :: groupInsert g rest

/-- The merged (connected-component) groups of a list of qubit sets. -/
def mergeGroups (gs : List (List ℕ)) : List (List ℕ) :=
  gs.foldl (fun m g => groupInsert g m) []

/-- `QHRFPass._breaks_connectivity`: with no accepted operation the answer is
`true`; otherwise the candidate must meet at least two merged groups of the
accepted operations' qubit sets. -/
def breaksConnectivity (op : Op) (cur : List Op) : Bool :=
  if cur.isEmpty then true
  else
    decide (1 < ((mergeGroups (cur.map (fun o => o.qubits))).filter
      (fun g => g.any (fun x => op.qubits.contains x))).length)

/-- Stable-descending insertion by contribution: the new pair goes after
every pair with a greater-or-equal score, matching Python's stable
`sorted(..., key=score, reverse=True)`. -/
def insertDesc (x : ℕ × ℚ) : List (ℕ × ℚ) → List (ℕ × ℚ)
  | [] => [x]
  | y :: ys => if x.2 ≤ y.2 then y :: insertDesc x ys else x :: y :: ys

/-- Stable sort by descending contribution. -/
def sortDesc (l : List (ℕ × ℚ)) : List (ℕ × ℚ) :=
  l.foldl (fun acc x => insertDesc x acc) []

/-- The (position, contribution) pairs of a layer, in position order
(`operation_contributions.items()`). -/
def contribPairs (layer : List Op) : List (ℕ × ℚ) :=
  (List.range layer.length).map (fun i => (i, contribution i layer))

/-- The keep loop of `QHRFPass._filter_layer` over the sorted pairs. -/
def filterFold (t : ℚ) (layer : List Op) (ps : List (ℕ × ℚ)) (start : List Op) :
    List Op :=
  ps.foldl (fun filtered p =>
    if t < p.2 then filtered ++ [layer.getD p.1 dfltOp]
    else if breaksConnectivity (layer.getD p.1 dfltOp) filtered then
      filtered ++ [layer.getD p.1 dfltOp]
    else filtered) start

/-- `QHRFPass._filter_layer`. -/
def filterLayer (t : ℚ) (layer : List Op) : List Op :=
  if layer.length ≤ 1 then layer
  else filterFold t layer (sortDesc (contribPairs layer)) []

/-- `QHRFPass._apply_recursive_filtering` + `_reconstruct_from_hierarchy` on
the operation list: filter each layer, drop layers that filtered to nothing,
concatenate, and re-append every gate with its qubits and no clbits
(`circuit.append(gate, qubits, [])`). -/
def applyQhrfOps (t : ℚ) (ops : List Op) : List Op :=
  (((buildLayers ops).map (filterLayer t)).filter (fun l => !l.isEmpty)).flatten.map
    stripClbits

/-- The Redundancy Filter pass (`QHRFPass`, threshold `t`); the rebuilt
circuit is `QuantumCircuit(num_qubits)` (no classical bits). -/
def applyQhrf (t : ℚ) (c : Circuit) : Circuit :=
  ⟨c.num_qubits, 0, applyQhrfOps t c.ops⟩

/-! ## Spec-side definitions

These are NOT translations of source functions; they render phrases of the
spec/claims (a bridge operation; the substitution behavior; the highest
scorer) so that the claims can be stated and compared with the code. -/

/-- The extraction predicate of the Sequency Truncator, named for reuse. -/
def extractedPred (q : ℕ) (op : Op) : Bool :=
  op.qubits == [q] && op.clbits == ([] : List ℕ) && seqhtNames.contains op.name

/-- Spec-side substitution walk (claim C10's description): the extracted
operations are substituted one-for-one, in order, by the first
`opt.length` optimized gates; later extracted operations and all
non-extracted operations are kept unchanged at their positions. -/
def specSubstitute (q : ℕ) (opt : List (String × ℚ)) : ℕ → List Op → List Op
  | _, [] => []
  | k, op :: rest =>
    if extractedPred q op then
      (if k < opt.length then mkRotOp q (opt.getD k ("", 0)) else op)
        :: specSubstitute q opt (k + 1) rest
    else
      op :: specSubstitute q opt k rest

/-- Spec-side rendering of a "sole connector" (claim C4, spec glossary
"Bridge operation"): removing the operation at position `i` from the layer
leaves its qubits spread over at least two distinct connectivity groups
(components of the remaining operations' qubit sets together with the
operation's own qubits as isolated nodes). -/
def specSoleConnector (i : ℕ) (layer : List Op) : Bool :=
  let op := layer.getD i dfltOp
  let remaining := (layer.eraseIdx i).map (fun o => o.qubits)
    ++ op.qubits.map (fun q => [q])
  decide (2 ≤ ((mergeGroups remaining).filter
    (fun g => g.any (fun x => op.qubits.contains x))).length)

/-- The running strict maximum of a list of (position, score) pairs: the
first pair whose score no later pair strictly exceeds.  For position-ordered
input this is the highest scorer, earliest in original order on ties. -/
def bestPair (l : List (ℕ × ℚ)) : ℕ × ℚ :=
  match l with
  | [] => (0, 0)
  | p :: rest => rest.foldl (fun b x => if x.2 ≤ b.2 then b else x) p

/-- Position of the highest-scoring operation of a layer (earliest on
ties). -/
def bestIdx (layer : List Op) : ℕ :=
  (bestPair (contribPairs layer)).1

/-- Number of operations of the layer whose contribution strictly exceeds
the threshold. -/
def countAbove (t : ℚ) (layer : List Op) : ℕ :=
  ((List.range layer.length).filter (fun i => decide (t < contribution i layer))).length

/-- The layer's operations whose contribution strictly exceeds the
threshold, in original order. -/
def aboveOps (t : ℚ) (layer : List Op) : List Op :=
  ((List.range layer.length).filter (fun i => decide (t < contribution i layer))).map
    (fun i => layer.getD i dfltOp)

/-- Pairwise qubit-disjointness of a layer's operations. -/
def LayerDisjoint (layer : List Op) : Prop :=
  layer.Pairwise (fun a b => ∀ q ∈ a.qubits, q ∉ b.qubits)

/-- Pending-rotation bookkeeping: record a list of pairs for one qubit in
order. -/
def addPairs (S : Seqs) (q : ℕ) (ps : List (String × ℚ)) : Seqs :=
  ps.foldl (fun T p => addRotation T q p) S

/-- The accumulator state reached by re-scanning a flushed emission: each
qubit keeps only its fused pair list, with empty entries gone. -/
def collapseSeqs (S : Seqs) : Seqs :=
  S.filterMap (fun e =>
    if e.2.isEmpty then none
    else if (optimizeRotationSequence e.2).isEmpty then none
    else some (e.1, optimizeRotationSequence e.2))

/-- An operation list that the fusion scan reproduces verbatim, leaving no
pending rotations. -/
def StableOps (A : List Op) : Prop :=
  ∀ B : List Op, A.foldl rotStep (B, ([] : Seqs)) = (B ++ A, ([] : Seqs))

/-- Distinct accumulator keys (an invariant of the `defaultdict`). -/
def keysDistinct (S : Seqs) : Prop := (S.map Prod.fst).Nodup

/-! ## Basic facts -/

theorem ratAbs_eq_abs (x : ℚ) : ratAbs x = |x| := by
  unfold ratAbs
  rcases lt_or_le x 0 with h | h
  · rw [if_pos h, abs_of_neg h]
  · rw [if_neg (not_lt.mpr h), abs_of_nonneg h]

theorem extractOps_eq_filter (ops : List Op) (q : ℕ) :
    extractOps ops q = ops.filter (extractedPred q) := rfl

/-! ## Basic lemmas about the Sequency Truncator -/

theorem length_replaceOpsAux (q : ℕ) (orig : List Op) (opt : List (String × ℚ)) :
    ∀ (i : ℕ) (ops : List Op), (replaceOpsAux q orig opt i ops).length = ops.length := by
  intro i ops
  induction ops generalizing i with
  | nil => rfl
  | cons op rest ih =>
    simp only [replaceOpsAux]
    split <;> [skip; simp [ih]]
    split <;> simp [ih]

theorem length_replaceOps (q : ℕ) (orig : List Op) (opt : List (String × ℚ))
    (ops : List Op) : (replaceOps q orig opt ops).length = ops.length :=
  length_replaceOpsAux q orig opt 0 ops

theorem length_seqhtQubitStep (t : ℚ) (ops acc : List Op) (q : ℕ) :
    (seqhtQubitStep t ops acc q).length = acc.length := by
  simp only [seqhtQubitStep]
  split
  · exact length_replaceOps _ _ _ _
  · rfl

theorem length_seqhtFoldl (t : ℚ) (ops : List Op) (l : List ℕ) :
    ∀ acc : List Op, (l.foldl (seqhtQubitStep t ops) acc).length = acc.length := by
  induction l with
  | nil => intro acc; rfl
  | cons q rest ih =>
    intro acc
    simp only [List.foldl_cons]
    rw [ih (seqhtQubitStep t ops acc q), length_seqhtQubitStep]

theorem length_applySeqhtOps (t : ℚ) (nq : ℕ) (ops : List Op) :
    (applySeqhtOps t nq ops).length = ops.length :=
  length_seqhtFoldl t ops (List.range nq) ops

theorem length_reconstructFromSequency (t : ℚ) (k : ℚ × ℚ × ℚ) :
    (reconstructFromSequency t k).length ≤ 3 := by
  unfold reconstructFromSequency
  split <;> split <;> split <;> simp

/-! ## Claim C1 (Sequency Truncator collapse guarantee) -/

/-- C1, counterexample.  On the 1-qubit circuit rx(1/1000), ry(1/1000) with
threshold 1/10, the run of 2 recognized single-qubit operations has every
accumulated coefficient below the threshold in magnitude, yet the truncator
returns both operations unchanged (2 operations, not the claimed 0): the
replacement list is empty, so the walk of `_replace_operations` keeps every
original operation. -/
theorem seqht_below_threshold_run_kept :
    (extractOps [⟨"rx", [1/1000], [0], []⟩, ⟨"ry", [1/1000], [0], []⟩] 0).length = 2
    ∧ ratAbs (computeSequencyCoefficients
        (extractOps [⟨"rx", [1/1000], [0], []⟩, ⟨"ry", [1/1000], [0], []⟩] 0)).1 < 1/10
    ∧ ratAbs (computeSequencyCoefficients
        (extractOps [⟨"rx", [1/1000], [0], []⟩, ⟨"ry", [1/1000], [0], []⟩] 0)).2.1 < 1/10
    ∧ ratAbs (computeSequencyCoefficients
        (extractOps [⟨"rx", [1/1000], [0], []⟩, ⟨"ry", [1/1000], [0], []⟩] 0)).2.2 < 1/10
    ∧ (applySeqht (1/10) ⟨1, 0, [⟨"rx", [1/1000], [0], []⟩, ⟨"ry", [1/1000], [0], []⟩]⟩).ops
        = [⟨"rx", [1/1000], [0], []⟩, ⟨"ry", [1/1000], [0], []⟩] := by
  refine ⟨?_, ?_, ?_, ?_, ?_⟩ <;>
    simp [applySeqht, applySeqhtOps, seqhtQubitStep, extractOps, List.range_succ,
      computeSequencyCoefficients, truncateTriple, truncateCoeff, reconstructFromSequency,
      replaceOps, replaceOpsAux, shouldReplace, mkRotOp, seqhtNames, opCoeffs, dfltOp,
      ratAbs, extractedPred] <;>
    norm_num

/-- C1, amended: the truncator never shrinks a run.  `_replace_operations`
substitutes the reconstructed gates only over the first `m` positions of the
run, where `m ≤ 3` is the reconstruction length, and keeps every remaining
operation; consequently the output operation list of the pass always has
exactly the length of the input, and the reconstructed replacement itself
(not the run it is written over) has at most 3 operations, with an empty
reconstruction when every coefficient is truncated. -/
theorem seqht_length_preserved_and_replacement_bounded (t : ℚ) (c : Circuit) (k : ℚ × ℚ × ℚ) :
    (applySeqht t c).ops.length = c.ops.length
    ∧ (reconstructFromSequency t k).length ≤ 3 :=
  ⟨length_applySeqhtOps t c.num_qubits c.ops, length_reconstructFromSequency t k⟩

/-! ## Claim C2 (Sequency Truncator concrete scenario) -/

/-- C2, counterexample.  On rx(0.001), ry(π/2), rz(0.0005) with threshold
0.1 the pass does NOT return the single operation ry(π/2): the surviving
coefficient is written over the first run position only, and the original
ry(π/2) and rz(0.0005) are kept, giving three operations. -/
theorem seqht_scenario_not_single_ry :
    (applySeqht (1/10) ⟨1, 0, [⟨"rx", [1/1000], [0], []⟩, ⟨"ry", [npPi/2], [0], []⟩,
        ⟨"rz", [1/2000], [0], []⟩]⟩).ops
      ≠ [⟨"ry", [npPi/2], [0], []⟩] := by
  intro h
  have := congrArg List.length h
  simp only [applySeqht] at this
  rw [length_applySeqhtOps] at this
  simp at this

/-- C2, amended: on the 1-qubit circuit rx(0.001), ry(π/2), rz(0.0005) with
truncation threshold 0.1, the Sequency Truncator returns the three-operation
list ry(π/2), ry(π/2), rz(0.0005): the reconstruction [ry(π/2)] replaces the
first operation of the run and the two remaining originals are kept. -/
theorem seqht_scenario_output :
    (applySeqht (1/10) ⟨1, 0, [⟨"rx", [1/1000], [0], []⟩, ⟨"ry", [npPi/2], [0], []⟩,
        ⟨"rz", [1/2000], [0], []⟩]⟩).ops
      = [⟨"ry", [npPi/2], [0], []⟩, ⟨"ry", [npPi/2], [0], []⟩, ⟨"rz", [1/2000], [0], []⟩] := by
  simp [applySeqht, applySeqhtOps, seqhtQubitStep, extractOps, List.range_succ,
    computeSequencyCoefficients, truncateTriple, truncateCoeff, reconstructFromSequency,
    replaceOps, replaceOpsAux, shouldReplace, mkRotOp, seqhtNames, npPi, opCoeffs, dfltOp,
    ratAbs]
  norm_num [npPi]

/-! ## Claim C3 (count preservation by the passes) -/

/-- C3, counterexample.  The Gate Set Translator (and likewise the
Redundancy Filter) rebuilds its circuit as `QuantumCircuit(num_qubits)`
with no classical bits: on the empty 1-qubit/1-clbit circuit both passes
return `num_clbits = 0`, not the input's 1. -/
theorem pass_clbits_not_preserved :
    (applyQiskitOptimization ⟨1, 1, []⟩).num_clbits = 0
    ∧ (applyQhrf (1/100) ⟨1, 1, []⟩).num_clbits = 0
    ∧ (⟨1, 1, []⟩ : Circuit).num_clbits = 1 := by
  exact ⟨rfl, rfl, rfl⟩

/-- C3, amended: every pass preserves `num_qubits`, and the Sequency
Truncator also preserves `num_clbits`; the Gate Set Translator and the
Redundancy Filter instead always return `num_clbits = 0` (so they preserve
the clbit count only when it is 0). -/
theorem pass_count_preservation (t u : ℚ) (c : Circuit) :
    (applyQiskitOptimization c).num_qubits = c.num_qubits
    ∧ (applyQhrf t c).num_qubits = c.num_qubits
    ∧ (applySeqht u c).num_qubits = c.num_qubits
    ∧ (applySeqht u c).num_clbits = c.num_clbits
    ∧ (applyQiskitOptimization c).num_clbits = 0
    ∧ (applyQhrf t c).num_clbits = 0 :=
  ⟨rfl, rfl, rfl, rfl, rfl, rfl⟩

/-! ## Claim C8 (Gate Set Translator concrete scenario) -/

/-- C8, confirmed.  The gate-set rewrite stage
(`IonQOptimizationPass._optimize_gate_set`, the claim's cited rewrite) maps
the 2-qubit circuit H(q0), CNOT(q0,q1) to exactly
ry(π/2)[q0], rx(π)[q0], rx(−π/2)[q0], rx(−π/2)[q1], rxx(π/4)[q0,q1]. -/
theorem gate_set_translator_h_cnot :
    optimizeGateSet ⟨2, 0, [⟨"h", [], [0], []⟩, ⟨"cx", [], [0, 1], []⟩]⟩
      = ⟨2, 0, [⟨"ry", [npPi/2], [0], []⟩, ⟨"rx", [npPi], [0], []⟩,
          ⟨"rx", [-(npPi/2)], [0], []⟩, ⟨"rx", [-(npPi/2)], [1], []⟩,
          ⟨"rxx", [npPi/4], [0, 1], []⟩]⟩ := by
  simp [optimizeGateSet, translateOp, stripClbits]

/-! ## Layer Builder invariants -/

theorem buildLayersAux_flatten :
    ∀ (ops : List Op) (acc : List (List Op)) (cur : List Op) (active : List ℕ),
      (buildLayersAux ops acc cur active).flatten = acc.flatten ++ cur ++ ops := by
  intro ops
  induction ops with
  | nil =>
    intro acc cur active
    simp only [buildLayersAux]
    split
    · rename_i h
      simp [List.isEmpty_iff.mp h]
    · simp
  | cons op rest ih =>
    intro acc cur active
    simp only [buildLayersAux]
    split
    · rw [ih]
      split
      · rename_i h
        simp [List.isEmpty_iff.mp h]
      · simp
    · rw [ih]
      simp

theorem buildLayers_flatten (ops : List Op) : (buildLayers ops).flatten = ops := by
  unfold buildLayers
  rw [buildLayersAux_flatten]
  simp

theorem buildLayersAux_sound :
    ∀ (ops : List Op) (acc : List (List Op)) (cur : List Op) (active : List ℕ),
      (∀ l ∈ acc, l ≠ [] ∧ LayerDisjoint l) →
      LayerDisjoint cur →
      (∀ op ∈ cur, ∀ q ∈ op.qubits, q ∈ active) →
      ∀ l ∈ buildLayersAux ops acc cur active, l ≠ [] ∧ LayerDisjoint l := by
  intro ops
  induction ops with
  | nil =>
    intro acc cur active hacc hcur _ l hl
    simp only [buildLayersAux] at hl
    split at hl
    · exact hacc l hl
    · rename_i h
      rw [List.mem_append] at hl
      rcases hl with hl | hl
      · exact hacc l hl
      · rw [List.mem_singleton] at hl
        subst hl
        exact ⟨fun he => h (by simp [he]), hcur⟩
  | cons op rest ih =>
    intro acc cur active hacc hcur hact l hl
    simp only [buildLayersAux] at hl
    split at hl
    · refine ih _ _ _ ?_ ?_ ?_ l hl
      · intro l' hl'
        split at hl'
        · exact hacc l' hl'
        · rename_i h
          rw [List.mem_append] at hl'
          rcases hl' with hl' | hl'
          · exact hacc l' hl'
          · rw [List.mem_singleton] at hl'
            subst hl'
            exact ⟨fun he => h (by simp [he]), hcur⟩
      · exact List.pairwise_singleton _ _
      · intro o ho q hq
        rw [List.mem_singleton] at ho
        subst ho
        exact hq
    · rename_i hnc
      refine ih _ _ _ hacc ?_ ?_ l hl
      · rw [LayerDisjoint, List.pairwise_append]
        refine ⟨hcur, List.pairwise_singleton _ _, ?_⟩
        intro a ha b hb q hqa hqb
        rw [List.mem_singleton] at hb
        have h1 : q ∈ active := hact a ha q hqa
        have h2 : ¬ (op.qubits.any fun x => active.contains x) = true := by
          simpa using hnc
        rw [List.any_eq_true] at h2
        exact h2 ⟨q, hb ▸ hqb, by simpa using h1⟩
      · intro o ho q hq
        rw [List.mem_append] at ho
        rcases ho with ho | ho
        · have := hact o ho q hq
          simp [this]
        · rw [List.mem_singleton] at ho
          subst ho
          simp [hq]

theorem buildLayers_sound (ops : List Op) :
    ∀ l ∈ buildLayers ops, l ≠ [] ∧ LayerDisjoint l :=
  buildLayersAux_sound ops [] [] [] (by simp) (List.Pairwise.nil) (by simp)

/-! ## Stable descending sort lemmas -/

theorem insertDesc_perm (x : ℕ × ℚ) :
    ∀ l : List (ℕ × ℚ), (insertDesc x l).Perm (x :: l) := by
  intro l
  induction l with
  | nil => rfl
  | cons y ys ih =>
    simp only [insertDesc]
    split
    · exact (ih.cons y).trans (List.Perm.swap x y ys)
    · rfl

theorem foldl_insertDesc_perm :
    ∀ (l acc : List (ℕ × ℚ)),
      (l.foldl (fun a x => insertDesc x a) acc).Perm (acc ++ l) := by
  intro l
  induction l with
  | nil => simp
  | cons x xs ih =>
    intro acc
    simp only [List.foldl_cons]
    refine ((ih (insertDesc x acc)).trans ((insertDesc_perm x acc).append_right xs)).trans ?_
    exact List.perm_middle.symm

theorem sortDesc_perm (l : List (ℕ × ℚ)) : (sortDesc l).Perm l := by
  unfold sortDesc
  simpa using foldl_insertDesc_perm l []

theorem insertDesc_ne_nil (x : ℕ × ℚ) (l : List (ℕ × ℚ)) : insertDesc x l ≠ [] := by
  cases l with
  | nil => simp [insertDesc]
  | cons y ys =>
    simp only [insertDesc]
    split <;> simp

theorem headD_insertDesc (x : ℕ × ℚ) (l : List (ℕ × ℚ)) (d : ℕ × ℚ) (h : l ≠ []) :
    (insertDesc x l).headD d = if x.2 ≤ (l.headD d).2 then l.headD d else x := by
  cases l with
  | nil => exact absurd rfl h
  | cons y ys =>
    simp only [insertDesc, List.headD_cons]
    split <;> simp

theorem headD_foldl_insertDesc (d : ℕ × ℚ) :
    ∀ (l acc : List (ℕ × ℚ)), acc ≠ [] →
      (l.foldl (fun a x => insertDesc x a) acc).headD d
        = l.foldl (fun b x => if x.2 ≤ b.2 then b else x) (acc.headD d) := by
  intro l
  induction l with
  | nil => intro acc _; rfl
  | cons x xs ih =>
    intro acc hacc
    simp only [List.foldl_cons]
    rw [ih (insertDesc x acc) (insertDesc_ne_nil x acc),
      headD_insertDesc x acc d hacc]

theorem sortDesc_headD (d : ℕ × ℚ) (p : ℕ × ℚ) (rest : List (ℕ × ℚ)) :
    (sortDesc (p :: rest)).headD d = bestPair (p :: rest) := by
  unfold sortDesc bestPair
  simp only [List.foldl_cons]
  have h1 : insertDesc p [] = [p] := rfl
  rw [h1, headD_foldl_insertDesc d rest [p] (by simp), List.headD_cons]

theorem bestPair_fold_spec :
    ∀ (rest : List (ℕ × ℚ)) (p : ℕ × ℚ),
      (p :: rest).Pairwise (fun a b => a.1 < b.1) →
      (rest.foldl (fun b x => if x.2 ≤ b.2 then b else x) p) ∈ (p :: rest)
      ∧ (∀ q ∈ p :: rest, q.2 ≤ (rest.foldl (fun b x => if x.2 ≤ b.2 then b else x) p).2)
      ∧ (∀ q ∈ p :: rest, q.2 = (rest.foldl (fun b x => if x.2 ≤ b.2 then b else x) p).2 →
          (rest.foldl (fun b x => if x.2 ≤ b.2 then b else x) p).1 ≤ q.1) := by
  intro rest
  induction rest with
  | nil =>
    intro p _
    refine ⟨by simp, ?_, ?_⟩
    · intro q hq; rw [List.mem_singleton] at hq; subst hq; rfl
    · intro q hq _; rw [List.mem_singleton] at hq; subst hq; rfl
  | cons x xs ih =>
    intro p hpw
    have hpx : p.1 < x.1 := (List.pairwise_cons.mp hpw).1 x (by simp)
    simp only [List.foldl_cons]
    by_cases hx : x.2 ≤ p.2
    · rw [if_pos hx]
      have hsub : (p :: xs).Sublist (p :: x :: xs) :=
        List.Sublist.cons₂ p (List.sublist_cons_self x xs)
      have hpw' : (p :: xs).Pairwise (fun a b => a.1 < b.1) := hpw.sublist hsub
      obtain ⟨hmem, hmax, hfirst⟩ := ih p hpw'
      have hple : p.2 ≤ (xs.foldl (fun b x => if x.2 ≤ b.2 then b else x) p).2 :=
        hmax p (List.mem_cons_self _ _)
      refine ⟨?_, ?_, ?_⟩
      · rcases List.mem_cons.mp hmem with h | h
        · rw [h]; exact List.mem_cons_self _ _
        · exact List.mem_cons_of_mem _ (List.mem_cons_of_mem _ h)
      · intro q hq
        rcases List.mem_cons.mp hq with h | h
        · subst h; exact hple
        · rcases List.mem_cons.mp h with h' | h'
          · subst h'; exact le_trans hx hple
          · exact hmax q (List.mem_cons_of_mem _ h')
      · intro q hq hqeq
        rcases List.mem_cons.mp hq with h | h
        · subst h; exact hfirst q (List.mem_cons_self _ _) hqeq
        · rcases List.mem_cons.mp h with h' | h'
          · subst h'
            have hpe : p.2 = (xs.foldl (fun b x => if x.2 ≤ b.2 then b else x) p).2 :=
              le_antisymm hple (hqeq ▸ hx)
            exact le_of_lt (lt_of_le_of_lt (hfirst p (List.mem_cons_self _ _) hpe) hpx)
          · exact hfirst q (List.mem_cons_of_mem _ h') hqeq
    · rw [if_neg hx]
      push_neg at hx
      have hpw' : (x :: xs).Pairwise (fun a b => a.1 < b.1) :=
        (List.pairwise_cons.mp hpw).2
      obtain ⟨hmem, hmax, hfirst⟩ := ih x hpw'
      have hxle : x.2 ≤ (xs.foldl (fun b y => if y.2 ≤ b.2 then b else y) x).2 :=
        hmax x (List.mem_cons_self _ _)
      refine ⟨List.mem_cons_of_mem _ hmem, ?_, ?_⟩
      · intro q hq
        rcases List.mem_cons.mp hq with h | h
        · subst h; exact le_trans (le_of_lt hx) hxle
        · exact hmax q h
      · intro q hq hqeq
        rcases List.mem_cons.mp hq with h | h
        · exfalso
          have hlt : p.2 < (xs.foldl (fun b y => if y.2 ≤ b.2 then b else y) x).2 :=
            lt_of_lt_of_le hx hxle
          rw [h] at hqeq
          exact absurd hqeq (ne_of_lt hlt)
        · exact hfirst q h hqeq

theorem mem_contribPairs {layer : List Op} {p : ℕ × ℚ} :
    p ∈ contribPairs layer ↔ p.1 < layer.length ∧ p.2 = contribution p.1 layer := by
  unfold contribPairs
  rw [List.mem_map]
  constructor
  · rintro ⟨i, hi, rfl⟩
    exact ⟨List.mem_range.mp hi, rfl⟩
  · rintro ⟨h1, h2⟩
    exact ⟨p.1, List.mem_range.mpr h1, by rw [← h2]⟩

theorem contribPairs_pairwise (layer : List Op) :
    (contribPairs layer).Pairwise (fun a b => a.1 < b.1) := by
  unfold contribPairs
  rw [List.pairwise_map]
  exact List.pairwise_lt_range _

theorem contribPairs_length (layer : List Op) :
    (contribPairs layer).length = layer.length := by
  simp [contribPairs]

theorem contribPairs_map_fst (layer : List Op) :
    (contribPairs layer).map Prod.fst = List.range layer.length := by
  simp only [contribPairs, List.map_map]
  exact List.map_id'' (fun x => rfl) _

theorem bestPair_contribPairs (layer : List Op) (p : ℕ × ℚ) (rest : List (ℕ × ℚ))
    (he : contribPairs layer = p :: rest) :
    bestPair (contribPairs layer) ∈ contribPairs layer
    ∧ (∀ i, i < layer.length →
        contribution i layer ≤ (bestPair (contribPairs layer)).2)
    ∧ (∀ i, i < layer.length →
        contribution i layer = (bestPair (contribPairs layer)).2 →
        (bestPair (contribPairs layer)).1 ≤ i) := by
  have hpw := contribPairs_pairwise layer
  rw [he] at hpw
  obtain ⟨hmem, hmax, hfirst⟩ := bestPair_fold_spec rest p hpw
  have hb : bestPair (contribPairs layer)
      = rest.foldl (fun b x => if x.2 ≤ b.2 then b else x) p := by
    rw [he]; rfl
  refine ⟨by rw [hb, he]; exact hmem, ?_, ?_⟩
  · intro i hi
    have : (i, contribution i layer) ∈ contribPairs layer :=
      mem_contribPairs.mpr ⟨hi, rfl⟩
    rw [he] at this
    rw [hb]
    exact hmax _ this
  · intro i hi hieq
    have : (i, contribution i layer) ∈ contribPairs layer :=
      mem_contribPairs.mpr ⟨hi, rfl⟩
    rw [he] at this
    rw [hb]
    exact hfirst _ this (by rw [← hb]; exact hieq)

/-! ## Connectivity-check lemmas -/

theorem groupInsert_mem (g : List ℕ) :
    ∀ (m : List (List ℕ)) (g' : List ℕ), g' ∈ groupInsert g m →
      ∀ x ∈ g', x ∈ g ∨ ∃ s ∈ m, x ∈ s := by
  intro m
  induction m with
  | nil =>
    intro g' hg' x hx
    simp only [groupInsert, List.mem_singleton] at hg'
    subst hg'
    exact Or.inl hx
  | cons eg rest ih =>
    intro g' hg' x hx
    simp only [groupInsert] at hg'
    split at hg'
    · rcases List.mem_cons.mp hg' with h | h
      · subst h
        rcases List.mem_append.mp hx with h1 | h1
        · rcases List.mem_append.mp h1 with h2 | h2
          · exact Or.inr ⟨eg, List.mem_cons_self _ _, h2⟩
          · exact Or.inl h2
        · rw [List.mem_flatten] at h1
          obtain ⟨s, hs, hxs⟩ := h1
          have := List.mem_of_mem_filter hs
          exact Or.inr ⟨s, List.mem_cons_of_mem _ this, hxs⟩
      · have := List.mem_of_mem_filter h
        exact Or.inr ⟨g', List.mem_cons_of_mem _ this, hx⟩
    · rcases List.mem_cons.mp hg' with h | h
      · subst h
        exact Or.inr ⟨g', List.mem_cons_self _ _, hx⟩
      · rcases ih g' h x hx with h1 | h1
        · exact Or.inl h1
        · obtain ⟨s, hs, hxs⟩ := h1
          exact Or.inr ⟨s, List.mem_cons_of_mem _ hs, hxs⟩

theorem mergeGroups_foldl_mem (C : ℕ → Prop) :
    ∀ (gs acc : List (List ℕ)),
      (∀ g' ∈ acc, ∀ x ∈ g', C x) →
      (∀ s ∈ gs, ∀ x ∈ s, C x) →
      ∀ g' ∈ gs.foldl (fun m g => groupInsert g m) acc, ∀ x ∈ g', C x := by
  intro gs
  induction gs with
  | nil => intro acc hacc _ g' hg'; exact hacc g' hg'
  | cons g rest ih =>
    intro acc hacc hgs g' hg'
    simp only [List.foldl_cons] at hg'
    refine ih (groupInsert g acc) ?_ ?_ g' hg'
    · intro g'' hg'' x hx
      rcases groupInsert_mem g acc g'' hg'' x hx with h | h
      · exact hgs g (List.mem_cons_self _ _) x h
      · obtain ⟨s, hs, hxs⟩ := h
        exact hacc s hs x hxs
    · intro s hs x hx
      exact hgs s (List.mem_cons_of_mem _ hs) x hx

theorem mergeGroups_mem (gs : List (List ℕ)) :
    ∀ g' ∈ mergeGroups gs, ∀ x ∈ g', ∃ s ∈ gs, x ∈ s := by
  intro g' hg' x hx
  exact mergeGroups_foldl_mem (fun x => ∃ s ∈ gs, x ∈ s) gs [] (by simp)
    (fun s hs x hx => ⟨s, hs, hx⟩) g' hg' x hx

/-- With at least one accepted operation whose qubits are all disjoint from
the candidate's, the connectivity check never fires: within a layer of the
builder the accepted operations' merged groups cannot meet the candidate's
qubit set at all. -/
theorem breaksConnectivity_false (op : Op) (cur : List Op) (hne : cur ≠ [])
    (hdisj : ∀ o ∈ cur, ∀ q ∈ op.qubits, q ∉ o.qubits) :
    breaksConnectivity op cur = false := by
  unfold breaksConnectivity
  rw [if_neg (by simpa using hne)]
  rw [decide_eq_false_iff_not]
  intro hlt
  have hfil : (mergeGroups (cur.map (fun o => o.qubits))).filter
      (fun g => g.any fun x => op.qubits.contains x) = [] := by
    rw [List.filter_eq_nil_iff]
    intro g hg
    rw [Bool.not_eq_true, List.any_eq_false]
    intro x hx
    rcases mergeGroups_mem _ g hg x hx with ⟨s, hs, hxs⟩
    rw [List.mem_map] at hs
    obtain ⟨o, ho, rfl⟩ := hs
    have : x ∉ op.qubits := fun hxop => hdisj o ho x hxop hxs
    simpa using this
  rw [hfil] at hlt
  simp at hlt

theorem layerDisjoint_getD {layer : List Op} (hd : LayerDisjoint layer)
    {i j : ℕ} (hi : i < layer.length) (hj : j < layer.length) (hne : i ≠ j) :
    ∀ q ∈ (layer.getD i dfltOp).qubits, q ∉ (layer.getD j dfltOp).qubits := by
  have hgi : layer.getD i dfltOp = layer.get ⟨i, hi⟩ := by
    simp [List.getD_eq_getElem?_getD, List.getElem?_eq_getElem hi]
  have hgj : layer.getD j dfltOp = layer.get ⟨j, hj⟩ := by
    simp [List.getD_eq_getElem?_getD, List.getElem?_eq_getElem hj]
  rw [hgi, hgj]
  rw [LayerDisjoint, List.pairwise_iff_get] at hd
  rcases Nat.lt_or_ge i j with hij | hij
  · exact hd ⟨i, hi⟩ ⟨j, hj⟩ hij
  · have hji : j < i := lt_of_le_of_ne hij (Ne.symm hne)
    intro q hqi hqj
    exact hd ⟨j, hj⟩ ⟨i, hi⟩ hji q hqj hqi

theorem filterFold_cons (t : ℚ) (layer : List Op) (p : ℕ × ℚ) (ps : List (ℕ × ℚ))
    (start : List Op) :
    filterFold t layer (p :: ps) start
      = filterFold t layer ps
          (if t < p.2 then start ++ [layer.getD p.1 dfltOp]
           else if breaksConnectivity (layer.getD p.1 dfltOp) start then
             start ++ [layer.getD p.1 dfltOp]
           else start) := by
  simp only [filterFold, List.foldl_cons]

/-- The keep loop after a first acceptance: within a pairwise-disjoint layer
every later below-threshold operation is dropped, so the fold appends
exactly the above-threshold positions, in processing order. -/
theorem filterFold_spec (t : ℚ) (layer : List Op) (hd : LayerDisjoint layer) :
    ∀ (ps : List (ℕ × ℚ)) (I : List ℕ),
      I ≠ [] →
      (∀ j ∈ I, j < layer.length) →
      (∀ p ∈ ps, p.1 < layer.length) →
      (I ++ ps.map Prod.fst).Nodup →
      filterFold t layer ps (I.map (fun j => layer.getD j dfltOp))
        = (I ++ (ps.filter (fun p => decide (t < p.2))).map Prod.fst).map
            (fun j => layer.getD j dfltOp) := by
  intro ps
  induction ps with
  | nil =>
    intro I _ _ _ _
    simp [filterFold]
  | cons p ps' ih =>
    intro I hIne hIbd hpbd hnd
    rw [filterFold_cons]
    by_cases ht : t < p.2
    · rw [if_pos ht]
      have hstep : I.map (fun j => layer.getD j dfltOp) ++ [layer.getD p.1 dfltOp]
          = (I ++ [p.1]).map (fun j => layer.getD j dfltOp) := by
        rw [List.map_append]; rfl
      rw [hstep]
      have hnd' : ((I ++ [p.1]) ++ ps'.map Prod.fst).Nodup := by
        have : (I ++ [p.1]) ++ ps'.map Prod.fst = I ++ (p.1 :: ps'.map Prod.fst) := by
          rw [List.append_assoc]; rfl
        rw [this]
        simpa using hnd
      rw [ih (I ++ [p.1]) (by simp) ?_ ?_ hnd']
      · have heq : (I ++ [p.1]) ++ (ps'.filter (fun p => decide (t < p.2))).map Prod.fst
            = I ++ ((p :: ps').filter (fun p => decide (t < p.2))).map Prod.fst := by
          rw [List.append_assoc]
          congr 1
          rw [List.filter_cons_of_pos (by simpa using ht)]
          rfl
        rw [heq]
      · intro j hj
        rcases List.mem_append.mp hj with h | h
        · exact hIbd j h
        · rw [List.mem_singleton] at h
          subst h
          exact hpbd p (List.mem_cons_self _ _)
      · intro p' hp'
        exact hpbd p' (List.mem_cons_of_mem _ hp')
    · rw [if_neg ht]
      have hbr : breaksConnectivity (layer.getD p.1 dfltOp)
          (I.map (fun j => layer.getD j dfltOp)) = false := by
        refine breaksConnectivity_false _ _ (by simpa using hIne) ?_
        intro o ho q hq
        rw [List.mem_map] at ho
        obtain ⟨j, hj, rfl⟩ := ho
        have hjne : p.1 ≠ j := by
          have hdisj2 := List.disjoint_of_nodup_append hnd
          intro he
          exact hdisj2 (he ▸ hj) (by simp)
        exact layerDisjoint_getD hd (hpbd p (List.mem_cons_self _ _)) (hIbd j hj)
          hjne q hq
      rw [hbr]
      simp only [Bool.false_eq_true, if_false]
      have hnd' : (I ++ ps'.map Prod.fst).Nodup := by
        refine hnd.sublist ?_
        refine List.Sublist.append_left ?_ I
        simp only [List.map_cons]
        exact List.sublist_cons_self _ _
      rw [ih I hIne hIbd (fun p' hp' => hpbd p' (List.mem_cons_of_mem _ hp')) hnd']
      rw [List.filter_cons_of_neg (by simpa using ht)]

theorem sortDesc_contribPairs_mem {layer : List Op} {p : ℕ × ℚ}
    (h : p ∈ sortDesc (contribPairs layer)) :
    p.1 < layer.length ∧ p.2 = contribution p.1 layer :=
  mem_contribPairs.mp ((sortDesc_perm _).mem_iff.mp h)

theorem sortDesc_contribPairs_fst_nodup (layer : List Op) :
    ((sortDesc (contribPairs layer)).map Prod.fst).Nodup := by
  have hperm : ((sortDesc (contribPairs layer)).map Prod.fst).Perm
      ((contribPairs layer).map Prod.fst) := (sortDesc_perm _).map Prod.fst
  rw [hperm.nodup_iff, contribPairs_map_fst]
  exact List.nodup_range _

theorem sortDesc_contribPairs_head (layer : List Op) (p₀ : ℕ × ℚ)
    (srest : List (ℕ × ℚ)) (hs : sortDesc (contribPairs layer) = p₀ :: srest) :
    p₀ = bestPair (contribPairs layer) := by
  have hlen : 0 < (contribPairs layer).length := by
    have := (sortDesc_perm (contribPairs layer)).length_eq
    rw [hs] at this
    simp only [List.length_cons] at this
    omega
  obtain ⟨q0, qrest, hq⟩ : ∃ q0 qrest, contribPairs layer = q0 :: qrest := by
    cases hcp : contribPairs layer with
    | nil => rw [hcp] at hlen; simp at hlen
    | cons a l => exact ⟨a, l, rfl⟩
  have := sortDesc_headD (0, 0) q0 qrest
  rw [← hq, hs] at this
  simpa using this

/-- Characterization of `_filter_layer` on a pairwise-disjoint layer of at
least 2 operations when some operation exceeds the threshold: the result is
exactly the above-threshold operations, in score-sorted order. -/
theorem filterLayer_above (t : ℚ) (layer : List Op) (hd : LayerDisjoint layer)
    (h2 : 2 ≤ layer.length)
    (hex : ∃ i, i < layer.length ∧ t < contribution i layer) :
    filterLayer t layer
      = ((sortDesc (contribPairs layer)).filter (fun p => decide (t < p.2))).map
          (fun p => layer.getD p.1 dfltOp) := by
  obtain ⟨p₀, srest, hs⟩ : ∃ p₀ srest, sortDesc (contribPairs layer) = p₀ :: srest := by
    cases hcase : sortDesc (contribPairs layer) with
    | nil =>
      exfalso
      have := (sortDesc_perm (contribPairs layer)).length_eq
      rw [hcase, contribPairs_length] at this
      simp only [List.length_nil] at this
      omega
    | cons a l => exact ⟨a, l, rfl⟩
  have hbest := sortDesc_contribPairs_head layer p₀ srest hs
  obtain ⟨q0, qrest, hq⟩ : ∃ q0 qrest, contribPairs layer = q0 :: qrest := by
    cases hcp : contribPairs layer with
    | nil =>
      exfalso
      have := contribPairs_length layer
      rw [hcp] at this
      simp at this
      omega
    | cons a l => exact ⟨a, l, rfl⟩
  obtain ⟨i, hi, hit⟩ := hex
  have hmax := (bestPair_contribPairs layer q0 qrest hq).2.1 i hi
  have ht0 : t < p₀.2 := by
    rw [hbest]
    exact lt_of_lt_of_le hit hmax
  unfold filterLayer
  rw [if_neg (by omega), hs, filterFold_cons, if_pos ht0]
  have hp₀ : p₀ ∈ sortDesc (contribPairs layer) := by rw [hs]; exact List.mem_cons_self _ _
  have hstep : ([] : List Op) ++ [layer.getD p₀.1 dfltOp]
      = [p₀.1].map (fun j => layer.getD j dfltOp) := by simp
  rw [hstep]
  have hnd : ([p₀.1] ++ srest.map Prod.fst).Nodup := by
    have : [p₀.1] ++ srest.map Prod.fst = (p₀ :: srest).map Prod.fst := rfl
    rw [this, ← hs]
    exact sortDesc_contribPairs_fst_nodup layer
  rw [filterFold_spec t layer hd srest [p₀.1] (by simp) ?_ ?_ hnd]
  · rw [List.filter_cons_of_pos (by simpa using ht0)]
    simp [List.map_map]
  · intro j hj
    rw [List.mem_singleton] at hj
    subst hj
    exact (sortDesc_contribPairs_mem hp₀).1
  · intro p hp
    have : p ∈ sortDesc (contribPairs layer) := by
      rw [hs]; exact List.mem_cons_of_mem _ hp
    exact (sortDesc_contribPairs_mem this).1

/-- Characterization of `_filter_layer` on a pairwise-disjoint layer of at
least 2 operations when no operation exceeds the threshold: exactly the
highest scorer (earliest on ties) survives, through the empty-accepted-set
branch of the connectivity check. -/
theorem filterLayer_below (t : ℚ) (layer : List Op) (hd : LayerDisjoint layer)
    (h2 : 2 ≤ layer.length)
    (hall : ∀ i, i < layer.length → contribution i layer ≤ t) :
    filterLayer t layer = [layer.getD (bestIdx layer) dfltOp] := by
  obtain ⟨p₀, srest, hs⟩ : ∃ p₀ srest, sortDesc (contribPairs layer) = p₀ :: srest := by
    cases hcase : sortDesc (contribPairs layer) with
    | nil =>
      exfalso
      have := (sortDesc_perm (contribPairs layer)).length_eq
      rw [hcase, contribPairs_length] at this
      simp only [List.length_nil] at this
      omega
    | cons a l => exact ⟨a, l, rfl⟩
  have hbest := sortDesc_contribPairs_head layer p₀ srest hs
  have hp₀ : p₀ ∈ sortDesc (contribPairs layer) := by rw [hs]; exact List.mem_cons_self _ _
  have hp₀m := sortDesc_contribPairs_mem hp₀
  have ht0 : ¬ t < p₀.2 := by
    rw [not_lt, hp₀m.2]
    exact hall p₀.1 hp₀m.1
  unfold filterLayer
  rw [if_neg (by omega), hs, filterFold_cons, if_neg ht0]
  have hbr : breaksConnectivity (layer.getD p₀.1 dfltOp) [] = true := rfl
  rw [if_pos hbr]
  have hstep : ([] : List Op) ++ [layer.getD p₀.1 dfltOp]
      = [p₀.1].map (fun j => layer.getD j dfltOp) := by simp
  rw [hstep]
  have hnd : ([p₀.1] ++ srest.map Prod.fst).Nodup := by
    have : [p₀.1] ++ srest.map Prod.fst = (p₀ :: srest).map Prod.fst := rfl
    rw [this, ← hs]
    exact sortDesc_contribPairs_fst_nodup layer
  rw [filterFold_spec t layer hd srest [p₀.1] (by simp) ?_ ?_ hnd]
  · have hfil : srest.filter (fun p => decide (t < p.2)) = [] := by
      rw [List.filter_eq_nil_iff]
      intro p hp
      have hpm : p ∈ sortDesc (contribPairs layer) := by
        rw [hs]; exact List.mem_cons_of_mem _ hp
      have := sortDesc_contribPairs_mem hpm
      simp only [decide_eq_true_eq]
      rw [this.2, not_lt]
      exact hall p.1 this.1
    rw [hfil]
    simp only [List.map_nil, List.append_nil, List.map_cons]
    rw [bestIdx, ← hbest]
  · intro j hj
    rw [List.mem_singleton] at hj
    subst hj
    exact hp₀m.1
  · intro p hp
    have : p ∈ sortDesc (contribPairs layer) := by
      rw [hs]; exact List.mem_cons_of_mem _ hp
    exact (sortDesc_contribPairs_mem this).1

theorem filterLayer_single (t : ℚ) (layer : List Op) (h : layer.length ≤ 1) :
    filterLayer t layer = layer := by
  unfold filterLayer
  rw [if_pos h]

theorem filterLayer_perm_above (t : ℚ) (layer : List Op) (hd : LayerDisjoint layer)
    (h2 : 2 ≤ layer.length)
    (hex : ∃ i, i < layer.length ∧ t < contribution i layer) :
    (filterLayer t layer).Perm (aboveOps t layer) := by
  rw [filterLayer_above t layer hd h2 hex]
  have hperm : ((sortDesc (contribPairs layer)).filter (fun p => decide (t < p.2))).Perm
      ((contribPairs layer).filter (fun p => decide (t < p.2))) :=
    (sortDesc_perm _).filter _
  refine (hperm.map _).trans ?_
  have heq : ((contribPairs layer).filter (fun p => decide (t < p.2))).map
      (fun p => layer.getD p.1 dfltOp) = aboveOps t layer := by
    unfold contribPairs aboveOps
    rw [List.filter_map, List.map_map]
    rfl
  rw [heq]

theorem filterLayer_length_above (t : ℚ) (layer : List Op) (hd : LayerDisjoint layer)
    (h2 : 2 ≤ layer.length)
    (hex : ∃ i, i < layer.length ∧ t < contribution i layer) :
    (filterLayer t layer).length = countAbove t layer := by
  have := (filterLayer_perm_above t layer hd h2 hex).length_eq
  rw [this]
  unfold aboveOps countAbove
  rw [List.length_map]

theorem countAbove_mono (layer : List Op) {t1 t2 : ℚ} (h : t1 ≤ t2) :
    countAbove t2 layer ≤ countAbove t1 layer := by
  unfold countAbove
  refine List.Sublist.length_le ?_
  refine List.monotone_filter_right _ ?_
  intro i hi
  simp only [decide_eq_true_eq] at hi ⊢
  exact lt_of_le_of_lt h hi

theorem countAbove_pos (t : ℚ) (layer : List Op)
    (hex : ∃ i, i < layer.length ∧ t < contribution i layer) :
    1 ≤ countAbove t layer := by
  obtain ⟨i, hi, hit⟩ := hex
  unfold countAbove
  have : i ∈ (List.range layer.length).filter
      (fun i => decide (t < contribution i layer)) := by
    rw [List.mem_filter]
    exact ⟨List.mem_range.mpr hi, by simpa using hit⟩
  exact List.length_pos.mpr (List.ne_nil_of_mem this)

/-- Per-layer survivor count is antitone in the threshold (for the layers
the builder produces). -/
theorem filterLayer_length_mono (layer : List Op) (hd : LayerDisjoint layer)
    {t1 t2 : ℚ} (h : t1 ≤ t2) :
    (filterLayer t2 layer).length ≤ (filterLayer t1 layer).length := by
  rcases le_or_lt layer.length 1 with hlen | hlen
  · rw [filterLayer_single t1 layer hlen, filterLayer_single t2 layer hlen]
  · have h2 : 2 ≤ layer.length := hlen
    by_cases hex2 : ∃ i, i < layer.length ∧ t2 < contribution i layer
    · have hex1 : ∃ i, i < layer.length ∧ t1 < contribution i layer := by
        obtain ⟨i, hi, hit⟩ := hex2
        exact ⟨i, hi, lt_of_le_of_lt h hit⟩
      rw [filterLayer_length_above t1 layer hd h2 hex1,
        filterLayer_length_above t2 layer hd h2 hex2]
      exact countAbove_mono layer h
    · push_neg at hex2
      rw [filterLayer_below t2 layer hd h2 hex2]
      by_cases hex1 : ∃ i, i < layer.length ∧ t1 < contribution i layer
      · rw [filterLayer_length_above t1 layer hd h2 hex1]
        simpa using countAbove_pos t1 layer hex1
      · push_neg at hex1
        rw [filterLayer_below t1 layer hd h2 hex1]

theorem flatten_filter_nonempty {α : Type} (ls : List (List α)) :
    (ls.filter (fun l => !l.isEmpty)).flatten = ls.flatten := by
  induction ls with
  | nil => rfl
  | cons l rest ih =>
    by_cases hl : l.isEmpty
    · rw [List.filter_cons_of_neg (by simp [hl])]
      rw [List.flatten_cons, List.isEmpty_iff.mp hl, ih]
      rfl
    · rw [List.filter_cons_of_pos (by simp [hl])]
      rw [List.flatten_cons, List.flatten_cons, ih]

theorem applyQhrfOps_length (t : ℚ) (ops : List Op) :
    (applyQhrfOps t ops).length
      = (((buildLayers ops).map (filterLayer t)).map List.length).sum := by
  unfold applyQhrfOps
  rw [List.length_map, flatten_filter_nonempty, List.length_flatten, List.map_map]

theorem map_getD_range {α : Type} (d : α) :
    ∀ l : List α, (List.range l.length).map (fun i => l.getD i d) = l := by
  intro l
  induction l with
  | nil => rfl
  | cons a rest ih =>
    rw [List.length_cons, List.range_succ_eq_map, List.map_cons, List.map_map]
    have : (List.range rest.length).map ((fun i => (a :: rest).getD i d) ∘ Nat.succ)
        = (List.range rest.length).map (fun i => rest.getD i d) := by
      refine List.map_congr_left ?_
      intro i _
      rfl
    rw [this, ih]
    rfl

theorem npPi_pos : 0 < npPi := by norm_num [npPi]

/-! ## Claim C6 (threshold monotonicity of the Redundancy Filter) -/

/-- C6, confirmed: for thresholds t1 < t2 the operation count of the
filtered circuit at t2 is at most that at t1.  Within each builder layer the
survivors are the above-threshold operations (or a single fallback when
none), and both counts are antitone in the threshold. -/
theorem qhrf_threshold_monotone (c : Circuit) (t1 t2 : ℚ) (h : t1 < t2) :
    (applyQhrf t2 c).ops.length ≤ (applyQhrf t1 c).ops.length := by
  show (applyQhrfOps t2 c.ops).length ≤ (applyQhrfOps t1 c.ops).length
  rw [applyQhrfOps_length, applyQhrfOps_length, List.map_map, List.map_map]
  refine List.sum_le_sum ?_
  intro layer hlayer
  exact filterLayer_length_mono layer ((buildLayers_sound c.ops layer hlayer).2) h.le

/-- C6, witness at thresholds 0 < 1 on a concrete 2-operation circuit. -/
theorem qhrf_threshold_monotone_witness :
    (0 : ℚ) < 1
    ∧ (applyQhrf 1 ⟨2, 0, [⟨"h", [], [0], []⟩, ⟨"x", [], [1], []⟩]⟩).ops.length
        ≤ (applyQhrf 0 ⟨2, 0, [⟨"h", [], [0], []⟩, ⟨"x", [], [1], []⟩]⟩).ops.length :=
  ⟨by norm_num, qhrf_threshold_monotone ⟨2, 0, [⟨"h", [], [0], []⟩, ⟨"x", [], [1], []⟩]⟩ 0 1
    (by norm_num)⟩

/-! ## Claim C5 (zero-threshold pass-through of the Redundancy Filter) -/

theorem aboveOps_eq_layer (t : ℚ) (layer : List Op)
    (hall : ∀ i, i < layer.length → t < contribution i layer) :
    aboveOps t layer = layer := by
  unfold aboveOps
  have hfil : (List.range layer.length).filter
      (fun i => decide (t < contribution i layer)) = List.range layer.length := by
    rw [List.filter_eq_self]
    intro i hi
    simpa using hall i (List.mem_range.mp hi)
  rw [hfil]
  exact map_getD_range dfltOp layer

theorem stripClbits_id (op : Op) (h : op.clbits = []) : stripClbits op = op := by
  unfold stripClbits
  cases op
  simp only at h
  simp [h]

/-- C5, counterexample.  A zero-angle rotation has contribution score 0,
which does not strictly exceed the threshold 0, and the connectivity check
cannot save it once another operation of its layer is accepted: on
rx(0)[q0], h[q1] the filter at threshold 0 drops the rx entirely. -/
theorem qhrf_zero_threshold_drops_op :
    (applyQhrf 0 ⟨2, 0, [⟨"rx", [0], [0], []⟩, ⟨"h", [], [1], []⟩]⟩).ops
        = [⟨"h", [], [1], []⟩]
    ∧ (⟨"rx", [0], [0], []⟩ : Op)
        ∈ (⟨2, 0, [⟨"rx", [0], [0], []⟩, ⟨"h", [], [1], []⟩]⟩ : Circuit).ops
    ∧ (⟨"rx", [0], [0], []⟩ : Op)
        ∉ (applyQhrf 0 ⟨2, 0, [⟨"rx", [0], [0], []⟩, ⟨"h", [], [1], []⟩]⟩).ops := by
  have h : (applyQhrf 0 ⟨2, 0, [⟨"rx", [0], [0], []⟩, ⟨"h", [], [1], []⟩]⟩).ops
      = [⟨"h", [], [1], []⟩] := by
    simp [applyQhrf, applyQhrfOps, buildLayers, buildLayersAux, filterLayer, filterFold,
      contribPairs, contribution, baseContribution, similarCount, sameQubitSet, sortDesc,
      insertDesc, breaksConnectivity, mergeGroups, groupInsert, overlapsGroup, stripClbits,
      dfltOp, ratAbs, min_def, List.range_succ, npPi]
    try norm_num [npPi]
    try simp [groupInsert, overlapsGroup, stripClbits, mergeGroups]
    try norm_num [npPi]
    decide
  refine ⟨h, by simp, ?_⟩
  rw [h]
  intro hmem
  simp at hmem

/-- C5, amended: at threshold 0 the filter keeps every operation whose own
contribution score in its layer is positive — also in circuits that contain
zero-score operations; only score-zero operations (zero-angle rotations)
can be dropped.  Classical bits must be empty for on-the-nose membership
since the reconstruction strips them. -/
theorem qhrf_zero_threshold_keeps_positive (c : Circuit)
    (hclb : ∀ op ∈ c.ops, op.clbits = []) :
    ∀ layer ∈ buildLayers c.ops, ∀ i, i < layer.length →
      0 < contribution i layer →
      layer.getD i dfltOp ∈ (applyQhrf 0 c).ops := by
  intro layer hlayer i hi hpos
  have hgetmem : layer.getD i dfltOp ∈ layer := by
    have hg : layer.getD i dfltOp = layer.get ⟨i, hi⟩ := by
      simp [List.getD_eq_getElem?_getD, List.getElem?_eq_getElem hi]
    rw [hg]
    exact layer.get_mem _ _
  have hopc : layer.getD i dfltOp ∈ c.ops := by
    rw [← buildLayers_flatten c.ops]
    exact List.mem_flatten.mpr ⟨layer, hlayer, hgetmem⟩
  have hkeep : layer.getD i dfltOp ∈ filterLayer 0 layer := by
    rcases le_or_lt layer.length 1 with hlen | hlen
    · rw [filterLayer_single 0 layer hlen]
      exact hgetmem
    · have h2 : 2 ≤ layer.length := hlen
      have hex : ∃ j, j < layer.length ∧ (0:ℚ) < contribution j layer := ⟨i, hi, hpos⟩
      have hperm := filterLayer_perm_above 0 layer
        ((buildLayers_sound c.ops layer hlayer).2) h2 hex
      rw [hperm.mem_iff]
      unfold aboveOps
      rw [List.mem_map]
      refine ⟨i, ?_, rfl⟩
      rw [List.mem_filter, List.mem_range]
      exact ⟨hi, by simpa using hpos⟩
  show layer.getD i dfltOp ∈ applyQhrfOps 0 c.ops
  unfold applyQhrfOps
  rw [List.mem_map]
  refine ⟨layer.getD i dfltOp, ?_, stripClbits_id _ (hclb _ hopc)⟩
  rw [List.mem_flatten]
  refine ⟨filterLayer 0 layer, ?_, hkeep⟩
  rw [List.mem_filter]
  constructor
  · rw [List.mem_map]
    exact ⟨layer, hlayer, rfl⟩
  · have he : (filterLayer 0 layer).isEmpty = false := by
      rw [List.isEmpty_eq_false_iff_exists_mem]
      exact ⟨_, hkeep⟩
    simp [he]

/-- C5, witness: on the mixed circuit rx(0)[q0], h[q1] — whose rx scores
exactly 0 and is in fact dropped — the positive-score h (score 1) survives
the zero-threshold filter. -/
theorem qhrf_zero_threshold_keeps_positive_witness :
    [(⟨"rx", [0], [0], []⟩ : Op), ⟨"h", [], [1], []⟩]
        ∈ buildLayers [(⟨"rx", [0], [0], []⟩ : Op), ⟨"h", [], [1], []⟩]
    ∧ 0 < contribution 1 [(⟨"rx", [0], [0], []⟩ : Op), ⟨"h", [], [1], []⟩]
    ∧ ([(⟨"rx", [0], [0], []⟩ : Op), ⟨"h", [], [1], []⟩].getD 1 dfltOp)
        ∈ (applyQhrf 0 ⟨2, 0, [⟨"rx", [0], [0], []⟩, ⟨"h", [], [1], []⟩]⟩).ops := by
  have hmem : [(⟨"rx", [0], [0], []⟩ : Op), ⟨"h", [], [1], []⟩]
      ∈ buildLayers [(⟨"rx", [0], [0], []⟩ : Op), ⟨"h", [], [1], []⟩] := by
    simp [buildLayers, buildLayersAux]
  have hpos : 0 < contribution 1 [(⟨"rx", [0], [0], []⟩ : Op), ⟨"h", [], [1], []⟩] := by
    simp [contribution, baseContribution, similarCount, sameQubitSet, dfltOp,
      List.range_succ]
    try norm_num
  have hclb : ∀ op ∈ (⟨2, 0, [⟨"rx", [0], [0], []⟩, ⟨"h", [], [1], []⟩]⟩ : Circuit).ops,
      op.clbits = [] := by
    intro op hop
    simp only [List.mem_cons, List.not_mem_nil, or_false] at hop
    rcases hop with h | h <;> (subst h; rfl)
  exact ⟨hmem, hpos,
    qhrf_zero_threshold_keeps_positive
      ⟨2, 0, [⟨"rx", [0], [0], []⟩, ⟨"h", [], [1], []⟩]⟩ hclb _ hmem 1 (by norm_num) hpos⟩

/-! ## Claim C4 (connectivity preservation by the Redundancy Filter) -/

/-- C4, counterexample.  Layer cx(q0,q1), cx(q2,q3) at threshold 10: both
scores are 1.5 ≤ 10, and cx(q2,q3) is a sole connector (it alone joins the
groups {q2} and {q3}), yet the filter keeps only the first-processed
cx(q0,q1) (through the empty-accepted-set branch) and REMOVES the sole
connector cx(q2,q3): the connectivity override never fires against
already-accepted operations because layer members are qubit-disjoint. -/
theorem qhrf_sole_connector_removed :
    buildLayers [⟨"cx", [], [0, 1], []⟩, ⟨"cx", [], [2, 3], []⟩]
        = [[⟨"cx", [], [0, 1], []⟩, ⟨"cx", [], [2, 3], []⟩]]
    ∧ specSoleConnector 1 [⟨"cx", [], [0, 1], []⟩, ⟨"cx", [], [2, 3], []⟩] = true
    ∧ contribution 1 [⟨"cx", [], [0, 1], []⟩, ⟨"cx", [], [2, 3], []⟩] ≤ 10
    ∧ (applyQhrf 10 ⟨4, 0, [⟨"cx", [], [0, 1], []⟩, ⟨"cx", [], [2, 3], []⟩]⟩).ops
        = [⟨"cx", [], [0, 1], []⟩]
    ∧ (⟨"cx", [], [2, 3], []⟩ : Op)
        ∉ (applyQhrf 10 ⟨4, 0, [⟨"cx", [], [0, 1], []⟩, ⟨"cx", [], [2, 3], []⟩]⟩).ops := by
  have hout : (applyQhrf 10 ⟨4, 0, [⟨"cx", [], [0, 1], []⟩, ⟨"cx", [], [2, 3], []⟩]⟩).ops
      = [⟨"cx", [], [0, 1], []⟩] := by
    simp [applyQhrf, applyQhrfOps, buildLayers, buildLayersAux, filterLayer, filterFold,
      contribPairs, contribution, baseContribution, similarCount, sameQubitSet, sortDesc,
      insertDesc, breaksConnectivity, mergeGroups, groupInsert, overlapsGroup, stripClbits,
      dfltOp, ratAbs, min_def, List.range_succ, npPi]
    try norm_num [npPi]
    try simp [groupInsert, overlapsGroup, stripClbits, mergeGroups]
    try norm_num [npPi]
    try decide
  refine ⟨by decide, by decide, ?_, hout, ?_⟩
  · simp [contribution, baseContribution, similarCount, sameQubitSet, contribPairs,
      dfltOp, List.range_succ]
    try norm_num
  · rw [hout]
    intro hmem
    simp at hmem

/-- C4, amended: the connectivity override compares the candidate only with
already-accepted operations of its layer, which are qubit-disjoint from it,
so it fires only while nothing has been accepted.  Consequently, when some
operation of the layer exceeds the threshold, every survivor is an
above-threshold operation (all sub-threshold operations, sole connectors
included, are removed); when none exceeds it, the filter keeps exactly the
single highest-scoring operation. -/
theorem qhrf_subthreshold_removed (c : Circuit) (t : ℚ) (layer : List Op)
    (hlayer : layer ∈ buildLayers c.ops) (h2 : 2 ≤ layer.length) :
    ((∃ j, j < layer.length ∧ t < contribution j layer) →
      ∀ op ∈ filterLayer t layer,
        ∃ j, j < layer.length ∧ t < contribution j layer
          ∧ layer.getD j dfltOp = op)
    ∧ ((∀ j, j < layer.length → contribution j layer ≤ t) →
      filterLayer t layer = [layer.getD (bestIdx layer) dfltOp]) := by
  have hd := (buildLayers_sound c.ops layer hlayer).2
  constructor
  · intro hex op hop
    have hperm := filterLayer_perm_above t layer hd h2 hex
    have hmem : op ∈ aboveOps t layer := hperm.mem_iff.mp hop
    unfold aboveOps at hmem
    rw [List.mem_map] at hmem
    obtain ⟨j, hj, rfl⟩ := hmem
    rw [List.mem_filter, List.mem_range] at hj
    exact ⟨j, hj.1, by simpa using hj.2, rfl⟩
  · intro hall
    exact filterLayer_below t layer hd h2 hall

/-- C4, witness: on the layer h(q0), x(q1) (scores 1 and 1) with threshold
2, no score exceeds the threshold and the filter keeps exactly the
highest-scoring operation. -/
theorem qhrf_subthreshold_removed_witness :
    [⟨"h", [], [0], []⟩, ⟨"x", [], [1], []⟩]
        ∈ buildLayers [⟨"h", [], [0], []⟩, ⟨"x", [], [1], []⟩]
    ∧ (∀ j, j < ([⟨"h", [], [0], []⟩, ⟨"x", [], [1], []⟩] : List Op).length →
        contribution j [⟨"h", [], [0], []⟩, ⟨"x", [], [1], []⟩] ≤ 2)
    ∧ filterLayer 2 [⟨"h", [], [0], []⟩, ⟨"x", [], [1], []⟩]
        = [([⟨"h", [], [0], []⟩, ⟨"x", [], [1], []⟩] : List Op).getD
            (bestIdx [⟨"h", [], [0], []⟩, ⟨"x", [], [1], []⟩]) dfltOp] := by
  have hall : ∀ j, j < ([⟨"h", [], [0], []⟩, ⟨"x", [], [1], []⟩] : List Op).length →
      contribution j [⟨"h", [], [0], []⟩, ⟨"x", [], [1], []⟩] ≤ 2 := by
    intro j hj
    simp only [List.length_cons, List.length_nil] at hj
    interval_cases j <;>
      · simp [contribution, baseContribution, similarCount, sameQubitSet, contribPairs,
          dfltOp, List.range_succ]
        try norm_num
  refine ⟨by decide, hall, ?_⟩
  exact (qhrf_subthreshold_removed
    ⟨2, 0, [⟨"h", [], [0], []⟩, ⟨"x", [], [1], []⟩]⟩ 2 _ (by decide) (by decide)).2 hall

/-! ## Claim C9 (implicit characterization of the Redundancy Filter) -/

/-- C9, confirmed: layers from the builder are nonempty with
pairwise-disjoint qubit sets; a 1-operation layer passes through unchanged;
a layer of 2 or more operations contributes exactly the operations whose
score strictly exceeds the threshold, or — when none does — exactly the
single highest-scoring operation (earliest in original order on ties,
witnessed by the stated maximality/minimality of `bestIdx`); the bridge
condition never holds against accepted qubit-disjoint operations, and a
non-empty circuit filters to a non-empty circuit. -/
theorem qhrf_filter_characterization (c : Circuit) (t : ℚ) :
    (∀ layer ∈ buildLayers c.ops, layer ≠ [] ∧ LayerDisjoint layer)
    ∧ (∀ layer ∈ buildLayers c.ops, layer.length = 1 → filterLayer t layer = layer)
    ∧ (∀ layer ∈ buildLayers c.ops, 2 ≤ layer.length →
        ((∃ i, i < layer.length ∧ t < contribution i layer) →
          (filterLayer t layer).Perm (aboveOps t layer))
        ∧ ((∀ i, i < layer.length → contribution i layer ≤ t) →
          filterLayer t layer = [layer.getD (bestIdx layer) dfltOp]
          ∧ bestIdx layer < layer.length
          ∧ (∀ i, i < layer.length →
              contribution i layer ≤ contribution (bestIdx layer) layer)
          ∧ (∀ i, i < layer.length →
              contribution i layer = contribution (bestIdx layer) layer →
              bestIdx layer ≤ i)))
    ∧ (c.ops ≠ [] → (applyQhrf t c).ops ≠ []) := by
  refine ⟨buildLayers_sound c.ops, ?_, ?_, ?_⟩
  · intro layer _ h1
    exact filterLayer_single t layer (by omega)
  · intro layer hlayer h2
    have hd := (buildLayers_sound c.ops layer hlayer).2
    constructor
    · exact filterLayer_perm_above t layer hd h2
    · intro hall
      obtain ⟨q0, qrest, hq⟩ : ∃ q0 qrest, contribPairs layer = q0 :: qrest := by
        cases hcp : contribPairs layer with
        | nil =>
          exfalso
          have := contribPairs_length layer
          rw [hcp] at this
          simp only [List.length_nil] at this
          omega
        | cons a l => exact ⟨a, l, rfl⟩
      obtain ⟨hmem, hmax, hfirst⟩ := bestPair_contribPairs layer q0 qrest hq
      have hbm := mem_contribPairs.mp hmem
      refine ⟨filterLayer_below t layer hd h2 hall, hbm.1, ?_, ?_⟩
      · intro i hi
        unfold bestIdx
        rw [← hbm.2]
        exact hmax i hi
      · intro i hi hie
        unfold bestIdx at hie ⊢
        rw [← hbm.2] at hie
        exact hfirst i hi hie
  · intro hne
    show applyQhrfOps t c.ops ≠ []
    have hbl : buildLayers c.ops ≠ [] := by
      intro hb
      have := buildLayers_flatten c.ops
      rw [hb] at this
      exact hne this.symm
    obtain ⟨layer₀, hlayer₀⟩ := List.exists_mem_of_ne_nil _ hbl
    have hfl : filterLayer t layer₀ ≠ [] := by
      have hsound := buildLayers_sound c.ops layer₀ hlayer₀
      rcases le_or_lt layer₀.length 1 with hlen | hlen
      · rw [filterLayer_single t layer₀ hlen]
        exact hsound.1
      · have h2 : 2 ≤ layer₀.length := hlen
        by_cases hex : ∃ i, i < layer₀.length ∧ t < contribution i layer₀
        · have hperm := filterLayer_perm_above t layer₀ hsound.2 h2 hex
          intro hnil
          have := hperm.length_eq
          rw [hnil] at this
          have hc := countAbove_pos t layer₀ hex
          unfold aboveOps at this
          unfold countAbove at hc
          rw [List.length_map] at this
          simp only [List.length_nil] at this
          omega
        · push_neg at hex
          rw [filterLayer_below t layer₀ hsound.2 h2 hex]
          simp
    obtain ⟨x, hx⟩ := List.exists_mem_of_ne_nil _ hfl
    refine List.ne_nil_of_mem (show stripClbits x ∈ applyQhrfOps t c.ops from ?_)
    unfold applyQhrfOps
    rw [List.mem_map]
    refine ⟨x, ?_, rfl⟩
    rw [List.mem_flatten]
    refine ⟨filterLayer t layer₀, ?_, hx⟩
    rw [List.mem_filter]
    constructor
    · rw [List.mem_map]
      exact ⟨layer₀, hlayer₀, rfl⟩
    · have : (filterLayer t layer₀).isEmpty = false := by
        rw [List.isEmpty_eq_false_iff_exists_mem]
        exact ⟨x, hx⟩
      simp [this]

/-- C9, witness: on the circuit rx(1)[q0], h[q1] at threshold 5 (no score
exceeds 5), the characterization yields the single-survivor form, and the
output of the non-empty circuit is non-empty. -/
theorem qhrf_filter_characterization_witness :
    [⟨"rx", [1], [0], []⟩, ⟨"h", [], [1], []⟩]
        ∈ buildLayers [⟨"rx", [1], [0], []⟩, ⟨"h", [], [1], []⟩]
    ∧ filterLayer 5 [⟨"rx", [1], [0], []⟩, ⟨"h", [], [1], []⟩]
        = [([⟨"rx", [1], [0], []⟩, ⟨"h", [], [1], []⟩] : List Op).getD
            (bestIdx [⟨"rx", [1], [0], []⟩, ⟨"h", [], [1], []⟩]) dfltOp]
    ∧ (applyQhrf 5 ⟨2, 0, [⟨"rx", [1], [0], []⟩, ⟨"h", [], [1], []⟩]⟩).ops ≠ [] := by
  have hmem : [⟨"rx", [1], [0], []⟩, ⟨"h", [], [1], []⟩]
      ∈ buildLayers [⟨"rx", [1], [0], []⟩, ⟨"h", [], [1], []⟩] := by decide
  have hall : ∀ i, i < ([⟨"rx", [1], [0], []⟩, ⟨"h", [], [1], []⟩] : List Op).length →
      contribution i [⟨"rx", [1], [0], []⟩, ⟨"h", [], [1], []⟩] ≤ 5 := by
    intro i hi
    simp only [List.length_cons, List.length_nil] at hi
    interval_cases i <;>
      · simp [contribution, baseContribution, similarCount, sameQubitSet, contribPairs,
          dfltOp, ratAbs, min_def, List.range_succ, npPi]
        try norm_num [npPi]
  have h := qhrf_filter_characterization
    ⟨2, 0, [⟨"rx", [1], [0], []⟩, ⟨"h", [], [1], []⟩]⟩ 5
  refine ⟨hmem, (((h.2.2.1 _ hmem (by decide)).2 hall).1), h.2.2.2 (by simp)⟩

/-! ## Rotation-fusion lemmas (Gate Set Translator) -/

theorem sumAxis_shift (n : String) :
    ∀ (rs : List (String × ℚ)) (s : ℚ),
      rs.foldl (fun s p => if p.1 = n then s + p.2 else s) s
        = s + sumAxis n rs := by
  intro rs
  induction rs with
  | nil => intro s; simp [sumAxis]
  | cons p ps ih =>
    intro s
    simp only [List.foldl_cons, sumAxis]
    by_cases hp : p.1 = n
    · rw [if_pos hp, ih (s + p.2)]
      have h0 : List.foldl (fun s p => if p.1 = n then s + p.2 else s) 0 (p :: ps)
          = (0 + p.2) + sumAxis n ps := by
        simp only [List.foldl_cons, if_pos hp]
        exact ih (0 + p.2)
      show s + p.2 + sumAxis n ps
          = s + List.foldl (fun s p => if p.1 = n then s + p.2 else s) 0 (p :: ps)
      rw [h0]
      ring
    · rw [if_neg hp, ih s]
      have h0 : List.foldl (fun s p => if p.1 = n then s + p.2 else s) 0 (p :: ps)
          = sumAxis n ps := by
        simp only [List.foldl_cons, if_neg hp]
        rfl
      show s + sumAxis n ps
          = s + List.foldl (fun s p => if p.1 = n then s + p.2 else s) 0 (p :: ps)
      rw [h0]

theorem sumAxis_append (n : String) (a b : List (String × ℚ)) :
    sumAxis n (a ++ b) = sumAxis n a + sumAxis n b := by
  show (a ++ b).foldl _ 0 = _
  rw [List.foldl_append]
  exact sumAxis_shift n b (sumAxis n a)

theorem sumAxis_nil (n : String) : sumAxis n [] = 0 := rfl

theorem sumAxis_single_same (n : String) (v : ℚ) : sumAxis n [(n, v)] = v := by
  simp [sumAxis]

theorem sumAxis_single_other (n m : String) (v : ℚ) (h : ¬ m = n) :
    sumAxis n [(m, v)] = 0 := by
  simp [sumAxis, h]

theorem opt_names (rs : List (String × ℚ)) :
    ∀ p ∈ optimizeRotationSequence rs,
      p.1 = "rx" ∨ p.1 = "ry" ∨ p.1 = "rz" := by
  intro p hp
  unfold optimizeRotationSequence at hp
  rcases List.mem_append.mp hp with h | h
  · rcases List.mem_append.mp h with h' | h'
    · split at h' <;> simp_all
    · split at h' <;> simp_all
  · split at h <;> simp_all

theorem sumAxis_opt_rx (rs : List (String × ℚ)) :
    sumAxis "rx" (optimizeRotationSequence rs)
      = if ionqEps < ratAbs (sumAxis "rx" rs) then sumAxis "rx" rs else 0 := by
  unfold optimizeRotationSequence
  rw [sumAxis_append, sumAxis_append]
  by_cases h1 : ionqEps < ratAbs (sumAxis "rx" rs) <;>
    by_cases h2 : ionqEps < ratAbs (sumAxis "ry" rs) <;>
      by_cases h3 : ionqEps < ratAbs (sumAxis "rz" rs) <;>
        simp [h1, h2, h3, sumAxis_nil, sumAxis_single_same, sumAxis_single_other]

theorem sumAxis_opt_ry (rs : List (String × ℚ)) :
    sumAxis "ry" (optimizeRotationSequence rs)
      = if ionqEps < ratAbs (sumAxis "ry" rs) then sumAxis "ry" rs else 0 := by
  unfold optimizeRotationSequence
  rw [sumAxis_append, sumAxis_append]
  by_cases h1 : ionqEps < ratAbs (sumAxis "rx" rs) <;>
    by_cases h2 : ionqEps < ratAbs (sumAxis "ry" rs) <;>
      by_cases h3 : ionqEps < ratAbs (sumAxis "rz" rs) <;>
        simp [h1, h2, h3, sumAxis_nil, sumAxis_single_same, sumAxis_single_other]

theorem sumAxis_opt_rz (rs : List (String × ℚ)) :
    sumAxis "rz" (optimizeRotationSequence rs)
      = if ionqEps < ratAbs (sumAxis "rz" rs) then sumAxis "rz" rs else 0 := by
  unfold optimizeRotationSequence
  rw [sumAxis_append, sumAxis_append]
  by_cases h1 : ionqEps < ratAbs (sumAxis "rx" rs) <;>
    by_cases h2 : ionqEps < ratAbs (sumAxis "ry" rs) <;>
      by_cases h3 : ionqEps < ratAbs (sumAxis "rz" rs) <;>
        simp [h1, h2, h3, sumAxis_nil, sumAxis_single_same, sumAxis_single_other]

theorem ratAbs_zero : ratAbs 0 = 0 := by simp [ratAbs]

theorem opt_idem (rs : List (String × ℚ)) :
    optimizeRotationSequence (optimizeRotationSequence rs)
      = optimizeRotationSequence rs := by
  have heps : ¬ ionqEps < (0:ℚ) := by norm_num [ionqEps]
  conv_lhs => rw [optimizeRotationSequence]
  rw [sumAxis_opt_rx, sumAxis_opt_ry, sumAxis_opt_rz]
  conv_rhs => rw [optimizeRotationSequence]
  by_cases h1 : ionqEps < ratAbs (sumAxis "rx" rs) <;>
    by_cases h2 : ionqEps < ratAbs (sumAxis "ry" rs) <;>
      by_cases h3 : ionqEps < ratAbs (sumAxis "rz" rs) <;>
        simp [h1, h2, h3, ratAbs_zero, heps]

theorem isRotOp_strip (op : Op) : isRotOp (stripClbits op) = isRotOp op := rfl

theorem strip_strip (op : Op) : stripClbits (stripClbits op) = stripClbits op := rfl

theorem rotStep_nonrot (st : List Op × Seqs) (op : Op) (h : isRotOp op = false) :
    rotStep st op = (st.1 ++ flushSeqs st.2 ++ [stripClbits op], []) := by
  unfold rotStep
  rw [if_neg (by simp [h])]

theorem flushSeqs_cons (e : ℕ × List (String × ℚ)) (S : Seqs) :
    flushSeqs (e :: S) = emitFor e ++ flushSeqs S := rfl

theorem keys_addRotation (q : ℕ) (r : String × ℚ) :
    ∀ S : Seqs, (addRotation S q r).map Prod.fst
      = if q ∈ S.map Prod.fst then S.map Prod.fst else S.map Prod.fst ++ [q] := by
  intro S
  induction S with
  | nil => simp [addRotation]
  | cons e rest ih =>
    simp only [addRotation]
    by_cases hk : e.1 = q
    · rw [if_pos hk]
      simp [hk]
    · rw [if_neg hk]
      simp only [List.map_cons, ih]
      by_cases hq : q ∈ rest.map Prod.fst
      · rw [if_pos hq, if_pos (by simp [hq])]
      · rw [if_neg hq, if_neg ?_]
        · simp
        · simp only [List.mem_cons]
          rintro (h | h)
          · exact hk h.symm
          · exact hq h

theorem keysDistinct_addRotation (q : ℕ) (r : String × ℚ) (S : Seqs)
    (h : keysDistinct S) : keysDistinct (addRotation S q r) := by
  unfold keysDistinct at h ⊢
  rw [keys_addRotation]
  split
  · exact h
  · rename_i hq
    rw [List.nodup_append]
    exact ⟨h, List.nodup_singleton q, by simpa using hq⟩

theorem addRotation_fresh (q : ℕ) (r : String × ℚ) :
    ∀ S : Seqs, q ∉ S.map Prod.fst → addRotation S q r = S ++ [(q, [r])] := by
  intro S
  induction S with
  | nil => intro _; rfl
  | cons e rest ih =>
    intro hq
    simp only [List.map_cons, List.mem_cons] at hq
    push_neg at hq
    simp only [addRotation]
    rw [if_neg (fun h => hq.1 h.symm), ih hq.2]
    rfl

theorem addRotation_concat (q : ℕ) (r : String × ℚ) :
    ∀ (S : Seqs) (rs : List (String × ℚ)), q ∉ S.map Prod.fst →
      addRotation (S ++ [(q, rs)]) q r = S ++ [(q, rs ++ [r])] := by
  intro S
  induction S with
  | nil =>
    intro rs _
    simp [addRotation]
  | cons e rest ih =>
    intro rs hq
    simp only [List.map_cons, List.mem_cons] at hq
    push_neg at hq
    show addRotation (e :: (rest ++ [(q, rs)])) q r = e :: (rest ++ [(q, rs ++ [r])])
    cases e with
    | mk k vs =>
      simp only [addRotation]
      rw [if_neg (fun h => hq.1 h.symm), ih rs hq.2]

theorem addPairs_concat (q : ℕ) :
    ∀ (ps : List (String × ℚ)) (S : Seqs) (rs : List (String × ℚ)),
      q ∉ S.map Prod.fst →
      addPairs (S ++ [(q, rs)]) q ps = S ++ [(q, rs ++ ps)] := by
  intro ps
  induction ps with
  | nil =>
    intro S rs _
    simp [addPairs]
  | cons p ps' ih =>
    intro S rs hq
    show addPairs (addRotation (S ++ [(q, rs)]) q p) q ps' = _
    rw [addRotation_concat q p S rs hq, ih S (rs ++ [p]) hq]
    simp

theorem addPairs_fresh (q : ℕ) (ps : List (String × ℚ)) (S : Seqs)
    (hq : q ∉ S.map Prod.fst) (hne : ps ≠ []) :
    addPairs S q ps = S ++ [(q, ps)] := by
  cases ps with
  | nil => exact absurd rfl hne
  | cons p ps' =>
    show addPairs (addRotation S q p) q ps' = _
    rw [addRotation_fresh q p S hq, addPairs_concat q ps' S [p] hq]
    rfl

theorem foldl_rotStep_emit (q : ℕ) :
    ∀ (ps : List (String × ℚ)) (A : List Op) (T : Seqs),
      (∀ p ∈ ps, p.1 = "rx" ∨ p.1 = "ry" ∨ p.1 = "rz") →
      ((ps.map (emitPair q)).flatten).foldl rotStep (A, T) = (A, addPairs T q ps) := by
  intro ps
  induction ps with
  | nil =>
    intro A T _
    simp [addPairs]
  | cons p ps' ih =>
    intro A T hnames
    have hp := hnames p (List.mem_cons_self _ _)
    have hemit : emitPair q p = [⟨p.1, [p.2], [q], []⟩] := by
      unfold emitPair
      rw [if_pos hp]
    rw [List.map_cons, List.flatten_cons, hemit]
    have hrot : isRotOp ⟨p.1, [p.2], [q], []⟩ = true := by
      unfold isRotOp
      rcases hp with h | h | h <;> simp [h]
    have hstep : rotStep (A, T) ⟨p.1, [p.2], [q], []⟩
        = (A, addRotation T q p) := by
      unfold rotStep
      rw [if_pos hrot]
      rfl
    show (( ⟨p.1, [p.2], [q], []⟩ :: (ps'.map (emitPair q)).flatten).foldl rotStep (A, T)) = _
    rw [List.foldl_cons, hstep, ih A (addRotation T q p)
      (fun p' hp' => hnames p' (List.mem_cons_of_mem _ hp'))]
    rfl

theorem collapseSeqs_cons (e : ℕ × List (String × ℚ)) (S : Seqs) :
    collapseSeqs (e :: S)
      = (if e.2.isEmpty then collapseSeqs S
         else if (optimizeRotationSequence e.2).isEmpty then collapseSeqs S
         else (e.1, optimizeRotationSequence e.2) :: collapseSeqs S) := by
  unfold collapseSeqs
  rw [List.filterMap_cons]
  split
  · rename_i h
    by_cases h1 : e.2.isEmpty
    · rw [if_pos h1]
    · rw [if_neg h1]
      by_cases h2 : (optimizeRotationSequence e.2).isEmpty
      · rw [if_pos h2]
      · exfalso
        simp [h1, h2] at h
  · rename_i v h
    by_cases h1 : e.2.isEmpty
    · simp [h1] at h
    · rw [if_neg h1]
      by_cases h2 : (optimizeRotationSequence e.2).isEmpty
      · simp [h1, h2] at h
      · rw [if_neg h2]
        simp only [h1, h2, if_false, Bool.false_eq_true] at h
        rw [← Option.some_inj.mp h]

/-- Re-scanning a flush of `S` from a key-disjoint accumulator `T` collects
exactly the fused pair lists. -/
theorem foldl_rotStep_flush :
    ∀ (S : Seqs) (A : List Op) (T : Seqs),
      keysDistinct S →
      (∀ k ∈ T.map Prod.fst, k ∉ S.map Prod.fst) →
      (flushSeqs S).foldl rotStep (A, T) = (A, T ++ collapseSeqs S) := by
  intro S
  induction S with
  | nil =>
    intro A T _ _
    show (A, T) = (A, T ++ collapseSeqs [])
    simp [collapseSeqs]
  | cons e S' ih =>
    intro A T hnd hdisj
    have hnd' : keysDistinct S' := by
      unfold keysDistinct at hnd ⊢
      rw [List.map_cons] at hnd
      exact (List.nodup_cons.mp hnd).2
    have hdisj' : ∀ k ∈ T.map Prod.fst, k ∉ S'.map Prod.fst := by
      intro k hk hk'
      exact hdisj k hk (by simp [hk'])
    rw [flushSeqs_cons, List.foldl_append, collapseSeqs_cons]
    by_cases h1 : e.2.isEmpty
    · rw [if_pos h1]
      have hf : emitFor e = [] := by unfold emitFor; rw [if_pos h1]
      rw [hf]
      exact ih A T hnd' hdisj'
    · rw [if_neg h1]
      have hf : emitFor e = ((optimizeRotationSequence e.2).map (emitPair e.1)).flatten := by
        unfold emitFor; rw [if_neg h1]
      rw [hf, foldl_rotStep_emit e.1 (optimizeRotationSequence e.2) A T (opt_names e.2)]
      by_cases h2 : (optimizeRotationSequence e.2).isEmpty
      · rw [if_pos h2]
        have : optimizeRotationSequence e.2 = [] := List.isEmpty_iff.mp h2
        rw [this]
        show (flushSeqs S').foldl rotStep (A, addPairs T e.1 []) = _
        exact ih A T hnd' hdisj'
      · rw [if_neg h2]
        have hfresh : e.1 ∉ T.map Prod.fst := by
          intro hmem
          exact hdisj e.1 hmem (by simp)
        rw [addPairs_fresh e.1 (optimizeRotationSequence e.2) T hfresh
          (by simpa using h2)]
        have hdisj2 : ∀ k ∈ (T ++ [(e.1, optimizeRotationSequence e.2)]).map Prod.fst,
            k ∉ S'.map Prod.fst := by
          intro k hk
          rw [List.map_append, List.mem_append] at hk
          rcases hk with hk | hk
          · exact hdisj' k hk
          · simp only [List.map_cons, List.map_nil, List.mem_singleton] at hk
            subst hk
            have hh : (e.1 :: S'.map Prod.fst).Nodup := by
              unfold keysDistinct at hnd
              rwa [List.map_cons] at hnd
            exact (List.nodup_cons.mp hh).1
        rw [ih A (T ++ [(e.1, optimizeRotationSequence e.2)]) hnd' hdisj2]
        simp

theorem flushSeqs_collapse (S : Seqs) :
    flushSeqs (collapseSeqs S) = flushSeqs S := by
  induction S with
  | nil => rfl
  | cons e S' ih =>
    rw [collapseSeqs_cons, flushSeqs_cons]
    by_cases h1 : e.2.isEmpty
    · rw [if_pos h1]
      have hf : emitFor e = [] := by unfold emitFor; rw [if_pos h1]
      rw [hf, ih]
      rfl
    · rw [if_neg h1]
      by_cases h2 : (optimizeRotationSequence e.2).isEmpty
      · rw [if_pos h2]
        have hf : emitFor e = ((optimizeRotationSequence e.2).map (emitPair e.1)).flatten := by
          unfold emitFor; rw [if_neg h1]
        rw [hf, List.isEmpty_iff.mp h2, ih]
        rfl
      · rw [if_neg h2, flushSeqs_cons, ih]
        congr 1
        have hf1 : emitFor (e.1, optimizeRotationSequence e.2)
            = ((optimizeRotationSequence (optimizeRotationSequence e.2)).map
                (emitPair e.1)).flatten := by
          unfold emitFor
          rw [if_neg (by simpa using h2)]
        have hf2 : emitFor e = ((optimizeRotationSequence e.2).map (emitPair e.1)).flatten := by
          unfold emitFor; rw [if_neg h1]
        rw [hf1, hf2, opt_idem]

/-- The fusion scan keeps the emitted prefix stable and the accumulator
keys distinct. -/
theorem rotScan_invariant :
    ∀ (ops : List Op) (A : List Op) (S : Seqs),
      StableOps A → keysDistinct S →
      StableOps (ops.foldl rotStep (A, S)).1
      ∧ keysDistinct (ops.foldl rotStep (A, S)).2 := by
  intro ops
  induction ops with
  | nil => intro A S hA hS; exact ⟨hA, hS⟩
  | cons op rest ih =>
    intro A S hA hS
    rw [List.foldl_cons]
    by_cases hrot : isRotOp op
    · have hstep : rotStep (A, S) op
          = (A, addRotation S (op.qubits.getD 0 0) (op.name, op.params.getD 0 0)) := by
        unfold rotStep
        rw [if_pos hrot]
      rw [hstep]
      exact ih A _ hA (keysDistinct_addRotation _ _ S hS)
    · rw [rotStep_nonrot (A, S) op (by simpa using hrot)]
      refine ih _ [] ?_ (by simp [keysDistinct])
      intro B
      rw [List.foldl_append, List.foldl_append, hA B,
        foldl_rotStep_flush S (B ++ A) [] hS (by simp)]
      simp only [List.nil_append, List.foldl_cons, List.foldl_nil]
      rw [rotStep_nonrot _ (stripClbits op) (by rw [isRotOp_strip]; simpa using hrot)]
      rw [flushSeqs_collapse, strip_strip]
      simp

theorem optimizeRotationsOps_fixed (A : List Op) (S : Seqs)
    (hA : StableOps A) (hS : keysDistinct S) :
    optimizeRotationsOps (A ++ flushSeqs S) = A ++ flushSeqs S := by
  unfold optimizeRotationsOps
  rw [List.foldl_append, hA [], foldl_rotStep_flush S ([] ++ A) [] hS (by simp)]
  simp [flushSeqs_collapse]

theorem optimizeRotationsOps_idem (ops : List Op) :
    optimizeRotationsOps (optimizeRotationsOps ops) = optimizeRotationsOps ops := by
  obtain ⟨hA, hS⟩ := rotScan_invariant ops [] []
    (fun B => by simp) (by simp [keysDistinct])
  show optimizeRotationsOps ((ops.foldl rotStep ([], ([] : Seqs))).1
      ++ flushSeqs (ops.foldl rotStep ([], ([] : Seqs))).2)
    = optimizeRotationsOps ops
  rw [optimizeRotationsOps_fixed _ _ hA hS]
  rfl

/-! ## Claim C7 (idempotence of rotation fusion) -/

/-- C7, confirmed: running the Gate Set Translator's rotation-fusion stage
(`IonQOptimizationPass._optimize_rotations`) twice yields the same circuit
as running it once.  A fused output consists of per-qubit runs of at most
one rotation per axis (each with magnitude above the cutoff) between
non-rotation operations; re-scanning re-collects and re-emits them
verbatim. -/
theorem rotation_fusion_idempotent (c : Circuit) :
    optimizeRotations (optimizeRotations c) = optimizeRotations c := by
  show (⟨c.num_qubits, 0, optimizeRotationsOps (optimizeRotationsOps c.ops)⟩ : Circuit)
    = ⟨c.num_qubits, 0, optimizeRotationsOps c.ops⟩
  rw [optimizeRotationsOps_idem]

/-! ## Claim C10 (surplus retention by the Sequency Truncator) -/

theorem getD_append_length {α : Type} (d : α) :
    ∀ (pre l : List α), (pre ++ l).getD pre.length d = l.getD 0 d := by
  intro pre
  induction pre with
  | nil => intro l; rfl
  | cons a rest ih =>
    intro l
    show (rest ++ l).getD rest.length d = l.getD 0 d
    exact ih l

theorem extractedPred_parts {q : ℕ} {op : Op} (h : extractedPred q op = true) :
    op.qubits = [q] ∧ op.clbits = [] ∧ op.name ∈ seqhtNames := by
  unfold extractedPred at h
  simp only [Bool.and_eq_true, beq_iff_eq, List.contains_eq_any_beq,
    List.any_eq_true, beq_iff_eq] at h
  obtain ⟨⟨h1, h2⟩, n, hn, hne⟩ := h
  exact ⟨h1, h2, hne ▸ hn⟩

theorem mem_extractOps_pred {q : ℕ} {ops : List Op} {op : Op}
    (h : op ∈ extractOps ops q) : extractedPred q op = true := by
  rw [extractOps_eq_filter] at h
  exact List.of_mem_filter h

/-- The substitution walk of `_replace_operations` agrees with the
spec-side substitution: for a circuit whose recognized single-qubit
operations on `q` carry no classical bits, the name-matching counter stays
synchronized with the extraction order. -/
theorem replaceOpsAux_spec (q : ℕ) (opt : List (String × ℚ)) :
    ∀ (ops pre : List Op),
      (∀ op ∈ ops, op.qubits = [q] → op.name ∈ seqhtNames → op.clbits = []) →
      replaceOpsAux q (pre ++ extractOps ops q) opt pre.length ops
        = specSubstitute q opt pre.length ops := by
  intro ops
  induction ops with
  | nil => intro pre _; rfl
  | cons op rest ih =>
    intro pre hclean
    have hclean' : ∀ o ∈ rest, o.qubits = [q] → o.name ∈ seqhtNames → o.clbits = [] :=
      fun o ho => hclean o (List.mem_cons_of_mem _ ho)
    by_cases hpred : extractedPred q op = true
    · have hext : extractOps (op :: rest) q = op :: extractOps rest q := by
        rw [extractOps_eq_filter, List.filter_cons_of_pos hpred, ← extractOps_eq_filter]
      obtain ⟨hq, hc, hn⟩ := extractedPred_parts hpred
      have hgetD : (pre ++ op :: extractOps rest q).getD pre.length dfltOp = op := by
        rw [getD_append_length]
        rfl
      have hsr : shouldReplace q (pre ++ extractOps (op :: rest) q) pre.length op = true := by
        rw [hext]
        unfold shouldReplace
        rw [hgetD]
        have h1 : (pre ++ op :: extractOps rest q).isEmpty = false := by
          rw [List.isEmpty_eq_false_iff_exists_mem]
          exact ⟨op, by simp⟩
        have h2 : pre.length < (pre ++ op :: extractOps rest q).length := by
          simp only [List.length_append, List.length_cons]
          omega
        simp [h1, h2, hq]
      have htail : replaceOpsAux q (pre ++ extractOps (op :: rest) q) opt
          (pre.length + 1) rest = specSubstitute q opt (pre.length + 1) rest := by
        rw [hext]
        have hassoc : pre ++ op :: extractOps rest q
            = (pre ++ [op]) ++ extractOps rest q := by simp
        have hlen1 : pre.length + 1 = (pre ++ [op]).length := by simp
        rw [hassoc, hlen1]
        exact ih (pre ++ [op]) hclean'
      simp only [specSubstitute, hpred, if_true, replaceOpsAux, hsr]
      by_cases hm : pre.length < opt.length
      · simp only [if_pos hm]
        rw [htail]
      · simp only [if_neg hm]
        rw [htail]
    · have heq : extractedPred q op = false := by simpa using hpred
      have hext : extractOps (op :: rest) q = extractOps rest q := by
        rw [extractOps_eq_filter, List.filter_cons_of_neg (by simp [heq]),
          ← extractOps_eq_filter]
      have hsr : shouldReplace q (pre ++ extractOps (op :: rest) q) pre.length op = false := by
        rw [hext]
        unfold shouldReplace
        by_cases hq : op.qubits = [q]
        · by_cases hn : op.name ∈ seqhtNames
          · exfalso
            have hc := hclean op (List.mem_cons_self _ _) hq hn
            apply hpred
            unfold extractedPred
            simp only [Bool.and_eq_true, beq_iff_eq]
            refine ⟨⟨hq, hc⟩, ?_⟩
            simp only [List.contains_eq_any_beq, List.any_eq_true, beq_iff_eq]
            exact ⟨op.name, hn, rfl⟩
          · cases hrest : extractOps rest q with
            | nil =>
              have hnl : ¬ pre.length < (pre ++ ([] : List Op)).length := by simp
              simp [hnl]
            | cons e es =>
              have hgetD : (pre ++ e :: es).getD pre.length dfltOp = e := by
                rw [getD_append_length]; rfl
              rw [hgetD]
              have hen : e.name ∈ seqhtNames := by
                have hme : extractedPred q e = true :=
                  mem_extractOps_pred (by rw [hrest]; exact List.mem_cons_self e es)
                exact (extractedPred_parts hme).2.2
              have hne : ¬ op.name = e.name := fun h => hn (h ▸ hen)
              simp [hne]
        · simp [hq]
      simp only [specSubstitute, heq, Bool.false_eq_true, if_false, replaceOpsAux, hsr]
      rw [hext]
      exact congrArg _ (ih pre hclean')

/-- C10, confirmed: with a run of at least 2 extracted operations (and no
classical bits on recognized single-qubit gates, per the data model), the
replacement walk substitutes exactly the first `m` extracted operations
one-for-one at their positions, where `m` is the length of the
reconstructed run, and keeps every remaining extracted operation (and all
other operations) unchanged — this is precisely `specSubstitute`. -/
theorem seqht_substitution (q : ℕ) (ops : List Op) (t : ℚ)
    (hclean : ∀ op ∈ ops, op.qubits = [q] → op.name ∈ seqhtNames → op.clbits = [])
    (hlen : 2 ≤ (extractOps ops q).length) :
    replaceOps q (extractOps ops q)
        (reconstructFromSequency t
          (truncateTriple t (computeSequencyCoefficients (extractOps ops q))))
        ops
      = specSubstitute q
          (reconstructFromSequency t
            (truncateTriple t (computeSequencyCoefficients (extractOps ops q))))
          0 ops := by
  unfold replaceOps
  have h := replaceOpsAux_spec q
    (reconstructFromSequency t
      (truncateTriple t (computeSequencyCoefficients (extractOps ops q))))
    ops [] hclean
  simpa using h

/-- C10, witness: the 4-rotation run rx(1), ry(1), rz(1), rx(1) on qubit 0
at threshold 1/2 (reconstruction length 3). -/
theorem seqht_substitution_witness :
    (∀ op ∈ [(⟨"rx", [1], [0], []⟩ : Op), ⟨"ry", [1], [0], []⟩, ⟨"rz", [1], [0], []⟩,
        ⟨"rx", [1], [0], []⟩], op.qubits = [0] → op.name ∈ seqhtNames → op.clbits = [])
    ∧ 2 ≤ (extractOps [(⟨"rx", [1], [0], []⟩ : Op), ⟨"ry", [1], [0], []⟩,
        ⟨"rz", [1], [0], []⟩, ⟨"rx", [1], [0], []⟩] 0).length
    ∧ replaceOps 0
        (extractOps [(⟨"rx", [1], [0], []⟩ : Op), ⟨"ry", [1], [0], []⟩,
          ⟨"rz", [1], [0], []⟩, ⟨"rx", [1], [0], []⟩] 0)
        (reconstructFromSequency (1/2)
          (truncateTriple (1/2) (computeSequencyCoefficients
            (extractOps [(⟨"rx", [1], [0], []⟩ : Op), ⟨"ry", [1], [0], []⟩,
              ⟨"rz", [1], [0], []⟩, ⟨"rx", [1], [0], []⟩] 0))))
        [(⟨"rx", [1], [0], []⟩ : Op), ⟨"ry", [1], [0], []⟩, ⟨"rz", [1], [0], []⟩,
          ⟨"rx", [1], [0], []⟩]
      = specSubstitute 0
          (reconstructFromSequency (1/2)
            (truncateTriple (1/2) (computeSequencyCoefficients
              (extractOps [(⟨"rx", [1], [0], []⟩ : Op), ⟨"ry", [1], [0], []⟩,
                ⟨"rz", [1], [0], []⟩, ⟨"rx", [1], [0], []⟩] 0))))
          0 [(⟨"rx", [1], [0], []⟩ : Op), ⟨"ry", [1], [0], []⟩, ⟨"rz", [1], [0], []⟩,
            ⟨"rx", [1], [0], []⟩] := by
  refine ⟨?_, ?_, ?_⟩
  · intro op hop
    simp only [List.mem_cons, List.not_mem_nil, or_false] at hop
    rcases hop with h | h | h | h <;> (subst h; intro _ _; rfl)
  · decide
  · exact seqht_substitution 0 _ (1/2)
      (by
        intro op hop
        simp only [List.mem_cons, List.not_mem_nil, or_false] at hop
        rcases hop with h | h | h | h <;> (subst h; intro _ _; rfl))
      (by decide)
